import Mathlib

/-!
Verification development for the quark HTTP file server (src/quark.c).

The request/response core of quark.c is embedded shallowly: byte strings are
`List Nat`, the filesystem and libc time parsing are explicit environment
parameters, and fallible C functions become `Option`/`Except` values.  Each
definition mirrors one function of quark.c (line numbers in the doc comments);
definitions that stand in for repository code that is not under src/ (the
config.h constants, the libc date parser) say so explicitly.
-/

namespace Quark

/-- PATH_MAX from limits.h on Linux (4096), the bound on the target buffer. -/
def PATH_MAX : Nat := 4096

/-- Modelled from the spec: HEADER_MAX is defined in config.h, which is not
under src/; the spec (section 5) gives a request-header buffer of 4 KiB. -/
def HEADER_MAX : Nat := 4096

/-- Modelled from the spec: FIELD_MAX is defined in config.h, which is not
under src/; the spec (section 5) gives a per-field value buffer of 200 bytes. -/
def FIELD_MAX : Nat := 200

/-- BUFSIZ from glibc stdio.h (8192), the sendfile copy-chunk size. -/
def BUFSIZ : Nat := 8192

/-- Byte list of an ASCII string literal. -/
def strBytes (s : String) : List Nat := s.data.map Char.toNat

/-- C-string view of a byte buffer: the bytes strictly before the first NUL. -/
def cstr (l : List Nat) : List Nat := l.takeWhile (fun c => c != 0)

/-- isspace in the C locale: space and the five control whitespace bytes. -/
def isSpaceC (c : Nat) : Bool := c == 32 || (9 ≤ c && c ≤ 13)

/-- Hexadecimal digit test, case-insensitive, on byte values. -/
def isHexD (c : Nat) : Bool :=
  (48 ≤ c && c ≤ 57) || (65 ≤ c && c ≤ 70) || (97 ≤ c && c ≤ 102)

/-- Value of a hexadecimal digit byte. -/
def hexVal (c : Nat) : Nat :=
  if c ≤ 57 then c - 48 else if c ≤ 70 then c - 55 else c - 87

/-- At most one hexadecimal digit (the field width left after a sign);
fails when the first byte is not a hex digit. -/
def hex1 : List Nat → Option Nat
  | [] => none
  | c :: _ => if isHexD c then some (hexVal c) else none

/-- At most two hexadecimal digits; fails when the first byte is not a hex
digit, and stops after one digit when the second byte is not one. -/
def hex2 : List Nat → Option Nat
  | [] => none
  | [c] => if isHexD c then some (hexVal c) else none
  | c :: d :: _ =>
    if isHexD c then
      if isHexD d then some (16 * hexVal c + hexVal d) else some (hexVal c)
    else none

/-- The sscanf(s + 1, "%2hhx", &n) conversion of quark.c:116 (glibc
semantics): leading whitespace is skipped without counting toward the field
width of 2, an optional sign counts toward the width, and at least one hex
digit must follow; the resulting int is stored into an unsigned char, so a
negated value is taken mod 256.  (With width 2 a "0x" prefix cannot be
followed by digits, so treating the leading 0 as an ordinary digit agrees
with glibc.) -/
def sscanf2hhx (l : List Nat) : Option Nat :=
  let l1 := l.dropWhile isSpaceC
  if l1.head? = some 43 then hex1 l1.tail
  else if l1.head? = some 45 then (hex1 l1.tail).map (fun v => (256 - v % 256) % 256)
  else hex2 l1

/-- decode from quark.c:106-126: '+' becomes space; '%' followed by bytes on
which the %2hhx conversion succeeds becomes that byte value, with the scan
pointer advanced past exactly two bytes after the '%'; every other byte
copies verbatim.  The result is none when the advance lands past the
terminating NUL (a '%' whose conversion succeeds with only one byte left in
the string): the C loop then reads bytes beyond the string, so its behaviour
depends on memory outside the input. -/
def decode : List Nat → Option (List Nat)
  | [] => some []
  | c :: r =>
    if c == 43 then (decode r).map (fun d => 32 :: d)
    else if c == 37 then
      match sscanf2hhx r with
      | some n =>
        match r with
        | _ :: _ :: r2 => (decode r2).map (fun d => n :: d)
        | _ => none
      | none => (decode r).map (fun d => c :: d)
    else (decode r).map (fun d => c :: d)

/-- Upper-case hexadecimal digit byte for a value below 16. -/
def hexU (d : Nat) : Nat := if d < 10 then 48 + d else 55 + d

/-- encode from quark.c:128-145: control bytes (below 0x20 or 0x7F) and bytes
above 0x7F become %XX with upper-case hex; all other bytes copy verbatim. -/
def encode : List Nat → List Nat
  | [] => []
  | c :: r =>
    if c < 32 || c == 127 || 127 < c then
      37 :: hexU (c % 256 / 16) :: hexU (c % 16) :: encode r
    else c :: encode r

/-- Split a byte list at every slash byte; n slashes yield n + 1 pieces, so
the result is never empty and a trailing slash yields a final empty piece. -/
def splitOnSlash : List Nat → List (List Nat)
  | [] => [[]]
  | c :: r =>
    if c == 47 then [] :: splitOnSlash r
    else
      match splitOnSlash r with
      | [] => [[c]]
      | h :: t => (c :: h) :: t

/-- The segment walk of normabspath (quark.c:491-523) as a stack machine over
the segments after the leading slash: an empty segment or "." is squashed,
".." squashes itself and pops the previously kept segment (no-op at root),
and any other segment is kept.  The boolean records whether the final
segment was squashed, in which case the C code truncates the buffer right
after the previous kept segment's slash, so the result keeps a trailing
slash. -/
def normSegs : List (List Nat) → List (List Nat) → List (List Nat) × Bool
  | st, [] => (st, false)
  | st, s :: rest =>
    if s = [] ∨ s = [46] then
      if rest = [] then (st, true) else normSegs st rest
    else if s = [46, 46] then
      if rest = [] then (st.dropLast, true) else normSegs st.dropLast rest
    else normSegs (st ++ [s]) rest

/-- Join segments with slash separators (the inverse of splitOnSlash on
slash-free segments). -/
def joinSegs : List (List Nat) → List Nat
  | [] => []
  | [s] => s
  | s :: rest => s ++ 47 :: joinSegs rest

/-- Rebuild the normalized path from the kept segments and the
trailing-slash flag. -/
def renderNorm : List (List Nat) × Bool → List Nat
  | (st, e) =>
    47 :: (joinSegs st ++ if e ∧ st ≠ [] then [47] else [])

/-- normabspath from quark.c:475-526: the path must begin with a slash
(none models the nonzero "malformed" return), and the segment walk collapses
empty, "." and ".." segments in place. -/
def normabspath (p : List Nat) : Option (List Nat) :=
  match p with
  | 47 :: rest => some (renderNorm (normSegs [] (splitOnSlash rest)))
  | _ => none

/-- Decimal digit test on byte values. -/
def isDigitC (c : Nat) : Bool := 48 ≤ c && c ≤ 57

/-- Value of a decimal digit string. -/
def digitsVal (l : List Nat) : Nat := l.foldl (fun a c => 10 * a + (c - 48)) 0

def INT_MAX : Int := 2147483647

/-- atoi from libc as used at quark.c:650-653: skip whitespace, optional
sign, then decimal digits; no digits gives 0.  none models a value outside
int range, where atoi has undefined behaviour. -/
def atoiM (l : List Nat) : Option Int :=
  let l1 := l.dropWhile isSpaceC
  let l2 := if l1.head? = some 43 ∨ l1.head? = some 45 then l1.tail else l1
  let sgn : Int := if l1.head? = some 45 then -1 else 1
  let v : Int := sgn * (digitsVal (l2.takeWhile isDigitC) : Nat)
  if v < -INT_MAX - 1 ∨ INT_MAX < v then none else some v

deriving instance DecidableEq for Except

/-- Request methods accepted by quark.c (req_method). -/
inductive Method
  | mGET
  | mHEAD
deriving DecidableEq, Repr

/-- struct request from quark.c:60-64, with the two recognized fields
broken out. -/
structure Request where
  method : Method
  target : List Nat
  fieldRange : List Nat
  fieldMod : List Nat
deriving DecidableEq, Repr

/-- The stat facts the planner reads: S_ISDIR, S_ISREG, st_size,
st_mtim.tv_sec. -/
structure FileInfo where
  isDir : Bool
  isReg : Bool
  size : Nat
  mtime : Int
deriving DecidableEq, Repr

/-- stat failure causes distinguished by quark.c (errno EACCES vs rest). -/
inductive StatErr
  | eacces
  | enoent
  | other
deriving DecidableEq, Repr

/-- Modelled from the spec: compile-time configuration from config.h, which
is not under src/ (docindex, listdirs, the ordered MIME table). -/
structure Config where
  docindex : List Nat
  listdirs : Bool
  mimes : List (List Nat × List Nat)

/-- The host environment of one request: the filesystem's answer to stat for
each path, the libc strptime/mktime composite for If-Modified-Since (not
part of src/, so abstracted as a partial map from field bytes to seconds),
and the indeterminate S_ISREG bit read from an uninitialized struct stat
after a failed stat (quark.c:602). -/
structure Env where
  statf : List Nat → Except StatErr FileInfo
  parseTime : List Nat → Option Int
  indetReg : Bool

/-- The action the planner ends with. -/
inductive Act
  | status (s : Nat)
  | redirect (loc : List Nat)
  | dirList (path : List Nat)
  | fileSend (path mime : List Nat) (lower upper : Int) (st : FileInfo)
  | ub
deriving DecidableEq, Repr

/-- Result of the response planner: every path handed to stat, scandir or
fopen in order; whether a 304 header was written before the final action
(quark.c:612-630 writes it and then falls through); and the final action.
Stream writes inside the planner are modelled as succeeding.  `ub` marks a
run into C undefined behaviour (atoi overflow). -/
structure PlanOut where
  touched : List (List Nat)
  pre304 : Bool
  act : Act
deriving DecidableEq, Repr

/-- The byte suffix after the last occurrence of b, as strrchr yields it
(none when b does not occur). -/
def afterLastByte (b : Nat) : List Nat → Option (List Nat)
  | [] => none
  | c :: r =>
    match afterLastByte b r with
    | some e => some e
    | none => if c == b then some r else none

def octetStream : List Nat := strBytes "application/octet-stream"

/-- MIME selection from quark.c:663-672: the bytes after the last '.' of the
final path are compared against the table in order; no dot or no match gives
application/octet-stream. -/
def mimeLookup (mimes : List (List Nat × List Nat)) (path : List Nat) : List Nat :=
  match afterLastByte 46 path with
  | none => octetStream
  | some e =>
    match mimes.find? (fun m => m.1 == e) with
    | some m => m.2
    | none => octetStream

/-- Split at the first occurrence of byte b (strchr): the part before and
the part after. -/
def splitAtFirst (b : Nat) : List Nat → Option (List Nat × List Nat)
  | [] => none
  | c :: r =>
    if c == b then some ([], r)
    else
      match splitAtFirst b r with
      | some (a, t) => some (c :: a, t)
      | none => none

/-- Split at the first CRLF pair (strstr with "\r\n"): the part before and
the part after the pair. -/
def splitAtCRLF : List Nat → Option (List Nat × List Nat)
  | [] => none
  | c :: r =>
    if c = 13 ∧ r.head? = some 10 then some ([], r.tail)
    else
      match splitAtCRLF r with
      | some (a, t) => some (c :: a, t)
      | none => none

/-- Splitting at the first CRLF accounts for every byte of the input. -/
theorem splitAtCRLF_some_len :
    ∀ (l a b : List Nat), splitAtCRLF l = some (a, b) →
      l.length = a.length + 2 + b.length := by
  intro l
  induction l with
  | nil => intro a b h; simp [splitAtCRLF] at h
  | cons c r ih =>
    intro a b h
    simp only [splitAtCRLF] at h
    split at h
    · rename_i hc
      obtain ⟨hc1, hc2⟩ := hc
      simp only [Option.some.injEq, Prod.mk.injEq] at h
      obtain ⟨h1, h2⟩ := h
      subst h1
      cases r with
      | nil => simp at hc2
      | cons x xs =>
        simp only [List.head?, Option.some.injEq] at hc2
        simp [← h2]
        omega
    · match hr : splitAtCRLF r with
      | none => rw [hr] at h; simp at h
      | some (a1, t1) =>
        rw [hr] at h
        simp only [Option.some.injEq, Prod.mk.injEq] at h
        obtain ⟨h1, h2⟩ := h
        have := ih a1 t1 hr
        simp only [← h1, ← h2, List.length_cons, this]
        omega

/-- Outcome of the Range header parse of quark.c:636-661. -/
inductive RangeRes
  | none400
  | ub
  | ok (lower upper : Int)
deriving DecidableEq, Repr

/-- Range parsing from quark.c:632-661: default window is [0, size]; an
exact "bytes=" prefix is required, then a '-' split; a nonempty left side
sets lower via atoi and a nonempty right side replaces upper via atoi;
negative values or lower > upper give 400, then upper is clamped to
min(size, upper).  Note upper holds the range's last-byte INDEX here, not
one past it. -/
def rangeWindow (size : Nat) (f : List Nat) : RangeRes :=
  if f = [] then .ok 0 size
  else if strBytes "bytes=" <+: f then
    match splitAtFirst 45 (f.drop 6) with
    | none => .none400
    | some (a, b) =>
      match (if a = [] then some 0 else atoiM a) with
      | none => .ub
      | some lo =>
        match (if b = [] then some (size : Int) else atoiM b) with
        | none => .ub
        | some hi =>
          if lo < 0 ∨ hi < 0 ∨ hi < lo then .none400
          else .ok lo (min (size : Int) hi)
  else .none400

/-- The tail of sendresponse once the final regular file is fixed
(quark.c:611-674): the If-Modified-Since check, which on a parse failure
answers 400 and otherwise may write a 304 header WITHOUT returning, then the
range window, the MIME lookup, and the handoff to sendfile. -/
def fileStage (cfg : Config) (env : Env) (r : Request) (touched : List (List Nat))
    (path : List Nat) (st : FileInfo) : PlanOut :=
  let fm := cstr r.fieldMod
  let modChk : Except Nat Bool :=
    if fm = [] then .ok false
    else
      match env.parseTime fm with
      | none => .error 400
      | some t => .ok (decide (st.mtime ≤ t))
  match modChk with
  | .error s => ⟨touched, false, .status s⟩
  | .ok pre =>
    match rangeWindow st.size (cstr r.fieldRange) with
    | .none400 => ⟨touched, pre, .status 400⟩
    | .ub => ⟨touched, pre, .ub⟩
    | .ok lo hi => ⟨touched, pre, .fileSend path (mimeLookup cfg.mimes path) lo hi st⟩

/-- sendresponse from quark.c:528-675 as a response plan: normalize the
target (400 on failure), reject hidden targets (403), stat, append a
trailing slash to directories (431 on overflow), redirect when the
canonical target differs, resolve a directory through docindex or the
listing, and otherwise run the file stage. -/
def sendresponseM (cfg : Config) (env : Env) (r : Request) : PlanOut :=
  let tgt := cstr r.target
  match normabspath tgt with
  | none => ⟨[], false, .status 400⟩
  | some rt0 =>
    if rt0.head? = some 46 ∨ [47, 46] <:+: rt0 then ⟨[], false, .status 403⟩
    else
      match env.statf rt0 with
      | .error e => ⟨[rt0], false, .status (if e = .eacces then 403 else 404)⟩
      | .ok st =>
        if st.isDir ∧ rt0.length = PATH_MAX - 2 then ⟨[rt0], false, .status 431⟩
        else
          let rt1 :=
            if st.isDir ∧ rt0 ≠ [] ∧ rt0.getLast? ≠ some 47 then rt0 ++ [47] else rt0
          if tgt ≠ rt1 then ⟨[rt0], false, .redirect (encode rt1)⟩
          else if st.isDir then
            let ip := tgt ++ cfg.docindex
            if PATH_MAX ≤ ip.length then ⟨[rt0], false, .status 431⟩
            else
              match env.statf ip with
              | .ok ist =>
                if ist.isReg then fileStage cfg env r [rt0, ip] ip ist
                else if cfg.listdirs then ⟨[rt0, ip, tgt], false, .dirList tgt⟩
                else ⟨[rt0, ip], false, .status 403⟩
              | .error e =>
                if cfg.listdirs then ⟨[rt0, ip, tgt], false, .dirList tgt⟩
                else if (¬ env.indetReg) ∨ e = .eacces then ⟨[rt0, ip], false, .status 403⟩
                else ⟨[rt0, ip], false, .status 404⟩
          else fileStage cfg env r [rt0] rt0 st

/-- Outcome of the header-receive loop of quark.c:181-194. -/
inductive RecvOut
  | err408
  | tooLarge
  | bytes (acc : List Nat)
deriving DecidableEq, Repr

/-- The header-receive loop of quark.c:181-194 over a script of read
results: none is a failing read (408), an empty chunk is EOF (the C breaks
and goes on to parse), and a data chunk is appended up to the remaining
buffer capacity.  After each read the last four buffer bytes are compared
with CRLFCRLF, and a full buffer without a terminator is 431.  An exhausted
script reads as EOF.  A chunk longer than the remaining capacity fills the
buffer exactly, so the loop then stops either way and the leftover is never
read; the room = 0 guard cannot fire when the loop starts below HEADER_MAX,
since the C checks hlen == sizeof(h) before reading again. -/
def recvLoop (acc : List Nat) : List (Option (List Nat)) → RecvOut
  | [] => .bytes acc
  | none :: _ => .err408
  | some [] :: _ => .bytes acc
  | some (c :: cs) :: rest =>
    if HEADER_MAX - acc.length = 0 then .tooLarge
    else
      let acc1 := acc ++ (c :: cs).take (HEADER_MAX - acc.length)
      if 4 ≤ acc1.length ∧ acc1.drop (acc1.length - 4) = [13, 10, 13, 10] then .bytes acc1
      else if acc1.length = HEADER_MAX then .tooLarge
      else recvLoop acc1 rest

/-- One pass of the two-entry field dispatch of quark.c:272-311 on the two
field slots (Range, If-Modified-Since): a remaining byte string is consumed
line by line; a line whose bytes begin with a recognized field name requires
a colon, skips spaces, and copies the bytes before the next CRLF into that
slot (431 beyond FIELD_MAX, 400 on a missing CRLF); any other line is
skipped past its CRLF (400 when there is none).  Each consumed line removes
at least its two CRLF bytes, so running with length + 1 rounds of fuel
never exhausts it; the fuel-zero arm mirrors the loop exit and is
unreachable through parseFields. -/
def parseFieldsF : Nat → List Nat → List Nat → List Nat → Except Nat (List Nat × List Nat)
  | 0, _, fr, fm => .ok (fr, fm)
  | fuel + 1, p, fr, fm =>
    match p with
    | [] => .ok (fr, fm)
    | _ :: _ =>
      if strBytes "Range" <+: p then
        match p.drop 5 with
        | 58 :: pv =>
          match splitAtCRLF (pv.dropWhile (fun c => c == 32)) with
          | none => .error 400
          | some (v, rest) =>
            if FIELD_MAX < v.length + 1 then .error 431
            else parseFieldsF fuel rest v fm
        | _ => .error 400
      else if strBytes "If-Modified-Since" <+: p then
        match p.drop 17 with
        | 58 :: pv =>
          match splitAtCRLF (pv.dropWhile (fun c => c == 32)) with
          | none => .error 400
          | some (v, rest) =>
            if FIELD_MAX < v.length + 1 then .error 431
            else parseFieldsF fuel rest fr v
        | _ => .error 400
      else
        match splitAtCRLF p with
        | none => .error 400
        | some (_, rest) => parseFieldsF fuel rest fr fm

/-- The field loop entered with enough fuel for its whole input. -/
def parseFields (p fr fm : List Nat) : Except Nat (List Nat × List Nat) :=
  parseFieldsF (p.length + 1) p fr fm

/-- The request-line and field parse of quark.c:205-313 on the received
header bytes (already truncated at the first NUL): method token GET or HEAD
(else 405) followed by one space, the target up to the next space (431
beyond PATH_MAX) percent-decoded in place, version HTTP/1.0 or HTTP/1.1
(else 505) followed by CRLF, then the field lines.  The result is none when
decode runs past its terminator (undefined behaviour). -/
def parseHeaderBytes (h : List Nat) : Option (Except Nat Request) :=
  match (if strBytes "GET" <+: h then some (Method.mGET, 3)
         else if strBytes "HEAD" <+: h then some (Method.mHEAD, 4)
         else none) with
  | none => some (.error 405)
  | some (m, mlen) =>
    match h.drop mlen with
    | 32 :: p =>
      let raw := p.takeWhile (fun c => c != 32)
      match p.drop raw.length with
      | 32 :: p2 =>
        if PATH_MAX < raw.length + 1 then some (.error 431)
        else
          match decode raw with
          | none => none
          | some tgt =>
            if strBytes "HTTP/" <+: p2 then
              let p3 := p2.drop 5
              if strBytes "1.0" <+: p3 ∨ strBytes "1.1" <+: p3 then
                let p4 := p3.drop 3
                if [13, 10] <+: p4 then
                  match parseFields (p4.drop 2) [] [] with
                  | .error s => some (.error s)
                  | .ok (fr, fm) => some (.ok ⟨m, cstr tgt, fr, fm⟩)
                else some (.error 400)
              else some (.error 505)
            else some (.error 400)
      | _ => some (.error 400)
    | _ => some (.error 400)

/-- getrequest from quark.c:171-314 over a read script: receive the header
(408 on a read error, 431 on overflow), then require at least two bytes
(else 400), strip the final two bytes, truncate at the first NUL and parse. -/
def getrequestM (s : List (Option (List Nat))) : Option (Except Nat Request) :=
  match recvLoop [] s with
  | .err408 => some (.error 408)
  | .tooLarge => some (.error 431)
  | .bytes acc =>
    if acc.length < 2 then some (.error 400)
    else parseHeaderBytes (cstr (acc.take (acc.length - 2)))

/-- IO script and file content for one sendfile call. -/
structure SfEnv where
  openOk : Bool
  seekOk : Bool
  content : List Nat
deriving DecidableEq, Repr

/-- Observable outcome of one sendfile call: the returned status, the
Content-Length and Content-Range values as printed (%zu, so negative off_t
values wrap mod 2^64), the body bytes written, and whether the FILE handle
was released before returning (vacuously true when the open itself failed). -/
structure SfRes where
  status : Nat
  cl : Option Nat
  cr : Option (Nat × Nat × Nat)
  body : List Nat
  closed : Bool
deriving DecidableEq, Repr

/-- Next write outcome of a script; an exhausted script succeeds. -/
def popW : List Bool → Bool × List Bool
  | [] => (true, [])
  | w :: ws => (w, ws)

def m64 : Int := 18446744073709551616

/-- A signed 64-bit value printed with %zu (converted to size_t). -/
def zu (x : Int) : Nat := (x % m64).toNat

/-- The body-copy loop of quark.c:450-466: read MIN(BUFSIZ, remaining)
bytes (remaining is off_t, so a negative value converts to a huge size_t
and the minimum is BUFSIZ), stop when fread returns 0, otherwise write the
chunk.  The fread error branch (bread < 0) is unreachable since fread
returns a size_t.  Each chunk's inner short-write loop is modelled as one
all-or-nothing write event.  Returns the bytes written, whether the loop
finished (false means a failed write, where the C returns without fclose),
and the remaining write script. -/
def copyLoopF (content : List Nat) :
    Nat → List Bool → Nat → Int → List Nat → List Nat × Bool × List Bool
  | 0, ws, _, _, acc => (acc, true, ws)
  | fuel + 1, ws, pos, remaining, acc =>
    let n := if remaining < 0 then BUFSIZ else min BUFSIZ remaining.toNat
    let bread := min n (content.length - pos)
    if bread = 0 then (acc, true, ws)
    else
      let w := popW ws
      if w.1 then
        copyLoopF content fuel w.2 (pos + bread) (remaining - bread)
          (acc ++ ((content.drop pos).take bread))
      else (acc, false, w.2)

/-- The body-copy loop of quark.c:450-466: read MIN(BUFSIZ, remaining)
bytes (remaining is off_t, so a negative value converts to a huge size_t
and the minimum is BUFSIZ), stop when fread returns 0, otherwise write the
chunk.  The fread error branch (bread < 0) is unreachable since fread
returns a size_t.  Each chunk's inner short-write loop is modelled as one
all-or-nothing write event.  Returns the bytes written, whether the loop
finished (false means a failed write, where the C returns without fclose),
and the remaining write script.  Every iteration advances the position by
at least one byte, so content.length - pos + 1 rounds of fuel never run
out and the fuel-zero arm (which mirrors the loop exit) is unreachable. -/
def copyLoop (content : List Nat) (ws : List Bool) (pos : Nat) (remaining : Int)
    (acc : List Nat) : List Nat × Bool × List Bool :=
  copyLoopF content (content.length - pos + 1) ws pos remaining acc

/-- sendfile from quark.c:397-473 over an IO script: open (403 on failure,
with nothing to release), seek to lower (500 on failure), write the status
header with Content-Length = upper - lower, the Content-Range line when the
request carried a Range field, and the blank line (any failed write gives
408 after fclose); for GET, stream upper - lower + 1 bytes from position
lower; a failed body write returns 408 WITHOUT closing the file. -/
def sendfileM (env : SfEnv) (ws : List Bool) (r : Request) (st : FileInfo)
    (lower upper : Int) : SfRes :=
  if env.openOk = false then
    ⟨if (popW ws).1 then 403 else 408, none, none, [], true⟩
  else if env.seekOk = false then
    ⟨if (popW ws).1 then 500 else 408, none, none, [], true⟩
  else
    let range := cstr r.fieldRange ≠ []
    let s0 : Nat := if range then 206 else 200
    let w1 := popW ws
    if w1.1 = false then ⟨408, none, none, [], true⟩
    else
      let clv := zu (upper - lower)
      let crv : Option (Nat × Nat × Nat) :=
        if range then some (zu lower, zu (upper - 1), st.size) else none
      let w2 := if range then popW w1.2 else (true, w1.2)
      if w2.1 = false then ⟨408, some clv, none, [], true⟩
      else
        let w3 := popW w2.2
        if w3.1 = false then ⟨408, some clv, crv, [], true⟩
        else
          match r.method with
          | .mHEAD => ⟨s0, some clv, crv, [], true⟩
          | .mGET =>
            let res := copyLoop env.content w3.2 lower.toNat (upper - lower + 1) []
            if res.2.1 then ⟨s0, some clv, crv, res.1, true⟩
            else ⟨408, some clv, crv, res.1, false⟩

/-- The segments of a path below its leading slash. -/
def segsOf (p : List Nat) : List (List Nat) := splitOnSlash (p.drop 1)

/-- Walk a segment sequence tracking depth below the root: ".." fails at
depth zero and otherwise pops; empty and "." segments are neutral; any
other segment descends.  true means the walk never tried to climb above
the root. -/
def depthWalk : Int → List (List Nat) → Bool
  | _, [] => true
  | d, s :: r =>
    if s = [46, 46] then decide (0 < d) && depthWalk (d - 1) r
    else if s = [] ∨ s = [46] then depthWalk d r
    else depthWalk (d + 1) r

/-- Containment of a filesystem path: absolute, no ".." segment, no segment
beginning with '.', and the segment walk never escapes the root. -/
def containedPath (p : List Nat) : Prop :=
  p.head? = some 47 ∧
  (∀ s ∈ segsOf p, s ≠ [46, 46] ∧ s.head? ≠ some 46) ∧
  depthWalk 0 (segsOf p) = true

/-- A well-formed index file name: nonempty, no slash, and not starting
with a dot (as "index.html" from the spec). -/
def goodIndexName (d : List Nat) : Prop :=
  d ≠ [] ∧ 47 ∉ d ∧ d.head? ≠ some 46

instance (d : List Nat) : Decidable (goodIndexName d) := by
  unfold goodIndexName; infer_instance

instance (p : List Nat) : Decidable (containedPath p) := by
  unfold containedPath; infer_instance

/-- A segment the normalizer keeps: nonempty, not ".", not "..", and (being
a piece of a slash split) free of slashes. -/
def keptSeg (s : List Nat) : Prop :=
  s ≠ [] ∧ s ≠ [46] ∧ s ≠ [46, 46] ∧ 47 ∉ s

/-- splitOnSlash never returns an empty list of pieces. -/
theorem splitOnSlash_ne_nil (l : List Nat) : splitOnSlash l ≠ [] := by
  cases l with
  | nil => simp [splitOnSlash]
  | cons c r =>
    simp only [splitOnSlash]
    split
    · simp
    · split <;> simp

/-- Every piece of a slash split is slash-free. -/
theorem splitOnSlash_no_slash (l : List Nat) : ∀ s ∈ splitOnSlash l, 47 ∉ s := by
  induction l with
  | nil => simp [splitOnSlash]
  | cons c r ih =>
    intro s hs
    simp only [splitOnSlash] at hs
    by_cases hc : (c == 47) = true
    · rw [if_pos hc] at hs
      rcases List.mem_cons.mp hs with hs | hs
      · simp [hs]
      · exact ih s hs
    · rw [if_neg hc] at hs
      cases hr : splitOnSlash r with
      | nil => exact absurd hr (splitOnSlash_ne_nil r)
      | cons h1 t =>
        rw [hr] at hs
        rcases List.mem_cons.mp hs with hs | hs
        · subst hs
          intro hmem
          rcases List.mem_cons.mp hmem with h2 | h2
          · exact hc (by simp [h2])
          · exact ih h1 (by rw [hr]; exact List.mem_cons_self h1 t) h2
        · exact ih s (by rw [hr]; exact List.mem_cons_of_mem h1 hs)

/-- A slash-free byte list splits into itself alone. -/
theorem splitOnSlash_eq_self {s : List Nat} (h : 47 ∉ s) : splitOnSlash s = [s] := by
  induction s with
  | nil => simp [splitOnSlash]
  | cons c r ih =>
    have hc : ¬ (c == 47) = true := by
      simp only [beq_iff_eq]
      intro hceq
      exact h (by simp [hceq])
    have hr : 47 ∉ r := fun hm => h (List.mem_cons_of_mem c hm)
    simp [splitOnSlash, hc, ih hr]

/-- Splitting distributes over a slash junction. -/
theorem splitOnSlash_append (l m : List Nat) :
    splitOnSlash (l ++ 47 :: m) = splitOnSlash l ++ splitOnSlash m := by
  induction l with
  | nil => simp [splitOnSlash]
  | cons c r ih =>
    rw [show (c :: r) ++ 47 :: m = c :: (r ++ 47 :: m) from rfl]
    simp only [splitOnSlash]
    by_cases hc : (c == 47) = true
    · rw [if_pos hc, if_pos hc, ih]
      simp
    · rw [if_neg hc, if_neg hc, ih]
      cases hr : splitOnSlash r with
      | nil => exact absurd hr (splitOnSlash_ne_nil r)
      | cons h t => simp

/-- Splitting a slash-terminated list appends one empty piece. -/
theorem splitOnSlash_append_slash (l : List Nat) :
    splitOnSlash (l ++ [47]) = splitOnSlash l ++ [[]] := by
  have h := splitOnSlash_append l []
  simpa [splitOnSlash] using h

/-- Splitting the join of nonempty slash-free segments recovers them. -/
theorem splitOnSlash_joinSegs {ss : List (List Nat)} (hne : ss ≠ [])
    (hs : ∀ s ∈ ss, 47 ∉ s) : splitOnSlash (joinSegs ss) = ss := by
  induction ss with
  | nil => exact absurd rfl hne
  | cons s rest ih =>
    cases rest with
    | nil => exact splitOnSlash_eq_self (hs s (by simp))
    | cons s2 r2 =>
      have h1 : joinSegs (s :: s2 :: r2) = s ++ 47 :: joinSegs (s2 :: r2) := rfl
      rw [h1, splitOnSlash_append, splitOnSlash_eq_self (hs s (by simp)),
        ih (by simp) (fun x hx => hs x (List.mem_cons_of_mem s hx))]
      rfl

/-- The normalizer walk only ever keeps segments that are nonempty, not
".", not "..", and slash-free, provided the incoming pieces are slash-free. -/
theorem normSegs_kept {ss : List (List Nat)} :
    ∀ {st : List (List Nat)}, (∀ s ∈ st, keptSeg s) → (∀ s ∈ ss, 47 ∉ s) →
      ∀ s ∈ (normSegs st ss).1, keptSeg s := by
  induction ss with
  | nil => intro st hst _ s hs; exact hst s hs
  | cons x rest ih =>
    intro st hst hss s hs
    simp only [normSegs] at hs
    by_cases h1 : x = [] ∨ x = [46]
    · rw [if_pos h1] at hs
      by_cases h2 : rest = []
      · rw [if_pos h2] at hs
        exact hst s hs
      · rw [if_neg h2] at hs
        exact ih hst (fun y hy => hss y (List.mem_cons_of_mem x hy)) s hs
    · rw [if_neg h1] at hs
      by_cases h3 : x = [46, 46]
      · rw [if_pos h3] at hs
        have hdl : ∀ y ∈ st.dropLast, keptSeg y := fun y hy =>
          hst y (List.dropLast_subset _ hy)
        by_cases h2 : rest = []
        · rw [if_pos h2] at hs
          exact hdl s hs
        · rw [if_neg h2] at hs
          exact ih hdl (fun y hy => hss y (List.mem_cons_of_mem x hy)) s hs
      · rw [if_neg h3] at hs
        have hx : keptSeg x := by
          refine ⟨?_, ?_, h3, hss x (by simp)⟩
          · intro h; exact h1 (Or.inl h)
          · intro h; exact h1 (Or.inr h)
        have hst1 : ∀ y ∈ st ++ [x], keptSeg y := by
          intro y hy
          rcases List.mem_append.mp hy with hy | hy
          · exact hst y hy
          · simp only [List.mem_singleton] at hy
            exact hy ▸ hx
        exact ih hst1 (fun y hy => hss y (List.mem_cons_of_mem x hy)) s hs

/-- On pieces that are all kept, the walk appends them to the stack and
reports no trailing squash. -/
theorem normSegs_all_kept {ss : List (List Nat)} :
    ∀ {st : List (List Nat)}, (∀ s ∈ ss, s ≠ [] ∧ s ≠ [46] ∧ s ≠ [46, 46]) →
      normSegs st ss = (st ++ ss, false) := by
  induction ss with
  | nil => intro st _; simp [normSegs]
  | cons x rest ih =>
    intro st h
    obtain ⟨hx1, hx2, hx3⟩ := h x (by simp)
    have h1 : ¬ (x = [] ∨ x = [46]) := by rintro (h | h) <;> [exact hx1 h; exact hx2 h]
    simp only [normSegs, if_neg h1, if_neg hx3,
      ih (fun y hy => h y (List.mem_cons_of_mem x hy))]
    simp

/-- On kept pieces followed by one empty piece, the walk appends the kept
pieces and reports a trailing squash. -/
theorem normSegs_all_kept_slash {ss : List (List Nat)} :
    ∀ {st : List (List Nat)}, (∀ s ∈ ss, s ≠ [] ∧ s ≠ [46] ∧ s ≠ [46, 46]) →
      normSegs st (ss ++ [[]]) = (st ++ ss, true) := by
  induction ss with
  | nil => intro st _; simp [normSegs]
  | cons x rest ih =>
    intro st h
    obtain ⟨hx1, hx2, hx3⟩ := h x (by simp)
    have h1 : ¬ (x = [] ∨ x = [46]) := by rintro (h | h) <;> [exact hx1 h; exact hx2 h]
    rw [List.cons_append]
    simp only [normSegs, if_neg h1, if_neg hx3]
    rw [ih (fun y hy => h y (List.mem_cons_of_mem x hy))]
    simp

/-- The normalizer's output shape: some kept stack st and trailing flag e. -/
theorem normabspath_shape {p out : List Nat} (h : normabspath p = some out) :
    ∃ st e, (∀ s ∈ st, keptSeg s) ∧ out = renderNorm (st, e) := by
  rw [normabspath.eq_def] at h
  split at h
  · rename_i rest
    simp only [Option.some.injEq] at h
    exact ⟨(normSegs [] (splitOnSlash rest)).1, (normSegs [] (splitOnSlash rest)).2,
      normSegs_kept (by simp) (splitOnSlash_no_slash rest), h.symm⟩
  · simp at h

/-- Rendering with the trailing flag off is the slash plus the joined stack. -/
theorem renderNorm_false (st : List (List Nat)) :
    renderNorm (st, false) = 47 :: joinSegs st := by
  simp [renderNorm]

/-- Rendering a nonempty stack with the trailing flag on appends a slash. -/
theorem renderNorm_true {st : List (List Nat)} (hst : st ≠ []) :
    renderNorm (st, true) = 47 :: (joinSegs st ++ [47]) := by
  simp [renderNorm, hst]

/-- Normalizing a rendered kept stack returns it unchanged: the normalized
form is a fixed point. -/
theorem normabspath_render {st : List (List Nat)} (e : Bool)
    (h : ∀ s ∈ st, keptSeg s) :
    normabspath (renderNorm (st, e)) = some (renderNorm (st, e)) := by
  by_cases hst : st = []
  · subst hst
    cases e <;> simp [renderNorm, normabspath, splitOnSlash, normSegs, joinSegs]
  · have hgood : ∀ s ∈ st, s ≠ [] ∧ s ≠ [46] ∧ s ≠ [46, 46] := by
      intro s hs; obtain ⟨h1, h2, h3, _⟩ := h s hs; exact ⟨h1, h2, h3⟩
    have hslash : ∀ s ∈ st, 47 ∉ s := fun s hs => (h s hs).2.2.2
    cases e with
    | false =>
      rw [renderNorm_false]
      simp only [normabspath]
      rw [splitOnSlash_joinSegs hst hslash, normSegs_all_kept hgood]
      simp [renderNorm]
    | true =>
      rw [renderNorm_true hst]
      simp only [normabspath]
      rw [splitOnSlash_append_slash, splitOnSlash_joinSegs hst hslash,
        normSegs_all_kept_slash hgood]
      rw [← renderNorm_true hst]
      simp

/-- A segment walk with no ".." segments never tries to climb. -/
theorem depthWalk_no_dotdot {ss : List (List Nat)} (h : ∀ s ∈ ss, s ≠ [46, 46]) :
    ∀ d, depthWalk d ss = true := by
  induction ss with
  | nil => intro d; rfl
  | cons s r ih =>
    intro d
    simp only [depthWalk, if_neg (h s (by simp))]
    split
    · exact ih (fun y hy => h y (List.mem_cons_of_mem s hy)) d
    · exact ih (fun y hy => h y (List.mem_cons_of_mem s hy)) (d + 1)

/-- Segments of a rendered empty stack: the one empty segment of "/". -/
theorem segsOf_render_nil (e : Bool) : segsOf (renderNorm ([], e)) = [[]] := by
  cases e <;> simp [renderNorm, segsOf, joinSegs, splitOnSlash]

/-- Segments of a rendered stack without trailing slash. -/
theorem segsOf_render_false {st : List (List Nat)} (hst : st ≠ [])
    (hs : ∀ s ∈ st, 47 ∉ s) : segsOf (renderNorm (st, false)) = st := by
  rw [renderNorm_false]
  simp only [segsOf, List.drop_succ_cons, List.drop_zero]
  exact splitOnSlash_joinSegs hst hs

/-- Segments of a rendered stack with trailing slash: one extra empty piece. -/
theorem segsOf_render_true {st : List (List Nat)} (hst : st ≠ [])
    (hs : ∀ s ∈ st, 47 ∉ s) : segsOf (renderNorm (st, true)) = st ++ [[]] := by
  rw [renderNorm_true hst]
  simp only [segsOf, List.drop_succ_cons, List.drop_zero]
  rw [splitOnSlash_append_slash, splitOnSlash_joinSegs hst hs]

/-- A kept segment beginning with a dot makes "/." an infix of the slash
plus the joined stack. -/
theorem joinSegs_dothead_infix {st : List (List Nat)} {s : List Nat}
    (hs : s ∈ st) (hh : s.head? = some 46) : [47, 46] <:+: 47 :: joinSegs st := by
  induction st with
  | nil => cases hs
  | cons x rest ih =>
    rcases List.mem_cons.mp hs with h | h
    · subst h
      cases s with
      | nil => simp at hh
      | cons c cs =>
        simp only [List.head?_cons, Option.some.injEq] at hh
        subst hh
        cases rest with
        | nil =>
          exact List.IsPrefix.isInfix ⟨cs, rfl⟩
        | cons y r2 =>
          exact List.IsPrefix.isInfix ⟨cs ++ 47 :: joinSegs (y :: r2), rfl⟩
    · cases rest with
      | nil => cases h
      | cons y r2 =>
        have hinf := ih h
        have hsuf : (47 :: joinSegs (y :: r2)) <:+ 47 :: joinSegs (x :: y :: r2) := by
          refine ⟨47 :: x, ?_⟩
          show 47 :: x ++ 47 :: joinSegs (y :: r2) = 47 :: joinSegs (x :: y :: r2)
          rfl
        exact hinf.trans hsuf.isInfix

/-- A kept segment beginning with a dot makes "/." an infix of the rendered
path, so the planner's hidden-target test catches it. -/
theorem render_dothead_infix {st : List (List Nat)} {s : List Nat} (e : Bool)
    (hs : s ∈ st) (hh : s.head? = some 46) : [47, 46] <:+: renderNorm (st, e) := by
  have h1 := joinSegs_dothead_infix hs hh
  have h2 : (47 :: joinSegs st) <+: renderNorm (st, e) := by
    refine ⟨if e ∧ st ≠ [] then [47] else [], ?_⟩
    simp [renderNorm]
  exact h1.trans h2.isInfix

/-- A rendered stack of kept segments none of which begins with a dot is a
contained path. -/
theorem containedPath_render {st : List (List Nat)} (e : Bool)
    (hk : ∀ s ∈ st, keptSeg s) (hd : ∀ s ∈ st, s.head? ≠ some 46) :
    containedPath (renderNorm (st, e)) := by
  have hslash : ∀ s ∈ st, 47 ∉ s := fun s hs => (hk s hs).2.2.2
  have hsegs : ∀ s ∈ segsOf (renderNorm (st, e)), s ≠ [46, 46] ∧ s.head? ≠ some 46 := by
    by_cases hst : st = []
    · subst hst
      rw [segsOf_render_nil]
      intro s hs
      simp only [List.mem_singleton] at hs
      subst hs
      exact ⟨by simp, by simp⟩
    · intro s hs
      have hmem : s ∈ st ∨ s = [] := by
        cases e with
        | false =>
          rw [segsOf_render_false hst hslash] at hs
          exact Or.inl hs
        | true =>
          rw [segsOf_render_true hst hslash] at hs
          rcases List.mem_append.mp hs with hs | hs
          · exact Or.inl hs
          · simp only [List.mem_singleton] at hs
            exact Or.inr hs
      rcases hmem with hm | hm
      · exact ⟨(hk s hm).2.2.1, hd s hm⟩
      · subst hm
        exact ⟨by simp, by simp⟩
  refine ⟨?_, hsegs, ?_⟩
  · simp [renderNorm]
  · exact depthWalk_no_dotdot (fun s hs => (hsegs s hs).1) 0

/-- Claim C10: normalization is idempotent: whenever normabspath succeeds,
running it again on the result succeeds and returns the result unchanged. -/
theorem normabspath_idempotent (p out : List Nat) (h : normabspath p = some out) :
    normabspath out = some out := by
  obtain ⟨st, e, hk, rfl⟩ := normabspath_shape h
  exact normabspath_render e hk

/-- Witness for C10 at the concrete target "/a/../b//./c/". -/
theorem normabspath_idempotent_witness :
    normabspath (strBytes "/b/c/") = some (strBytes "/b/c/") :=
  normabspath_idempotent (strBytes "/a/../b//./c/") (strBytes "/b/c/") (by decide)

/-- Appending a slash to a contained path keeps it contained (one more
empty segment). -/
theorem containedPath_append_slash {p : List Nat} (h : containedPath p) :
    containedPath (p ++ [47]) := by
  obtain ⟨h1, h2, _⟩ := h
  cases p with
  | nil => simp at h1
  | cons c rest =>
    simp only [List.head?_cons, Option.some.injEq] at h1
    subst h1
    have hsegs : segsOf ((47 :: rest) ++ [47]) = segsOf (47 :: rest) ++ [[]] := by
      simp only [segsOf, List.cons_append, List.drop_succ_cons, List.drop_zero]
      exact splitOnSlash_append_slash rest
    have h2n : ∀ s ∈ segsOf ((47 :: rest) ++ [47]), s ≠ [46, 46] ∧ s.head? ≠ some 46 := by
      rw [hsegs]
      intro s hs
      rcases List.mem_append.mp hs with hs | hs
      · exact h2 s hs
      · simp only [List.mem_singleton] at hs
        subst hs
        exact ⟨by simp, by simp⟩
    exact ⟨rfl, h2n, depthWalk_no_dotdot (fun s hs => (h2n s hs).1) 0⟩

/-- Segments after appending a slash-free name to a slash-terminated path:
the trailing empty segment is replaced by the name. -/
theorem segsOf_append_name {p d : List Nat} (hp : p.getLast? = some 47)
    (hd : 47 ∉ d) : segsOf (p ++ d) = (segsOf p).dropLast ++ [d] := by
  obtain ⟨q, hq⟩ := List.getLast?_eq_some_iff.mp hp
  subst hq
  cases q with
  | nil => simp [segsOf, splitOnSlash_eq_self hd, splitOnSlash]
  | cons c q2 =>
    have e1 : ((c :: q2) ++ [47]) ++ d = c :: (q2 ++ 47 :: d) := by simp
    have e2 : (c :: q2) ++ [47] = c :: (q2 ++ [47]) := by simp
    rw [e1, e2]
    simp only [segsOf, List.drop_succ_cons, List.drop_zero]
    rw [splitOnSlash_append, splitOnSlash_append_slash, splitOnSlash_eq_self hd]
    simp

/-- Appending a well-formed index name to a contained slash-terminated path
keeps it contained. -/
theorem containedPath_append_name {p d : List Nat} (h : containedPath p)
    (hlast : p.getLast? = some 47) (hidx : goodIndexName d) :
    containedPath (p ++ d) := by
  obtain ⟨h1, h2, _⟩ := h
  obtain ⟨hd1, hd2, hd3⟩ := hidx
  have hsegs := segsOf_append_name hlast hd2
  have h2n : ∀ s ∈ segsOf (p ++ d), s ≠ [46, 46] ∧ s.head? ≠ some 46 := by
    rw [hsegs]
    intro s hs
    rcases List.mem_append.mp hs with hs | hs
    · exact h2 s (List.dropLast_subset _ hs)
    · simp only [List.mem_singleton] at hs
      subst hs
      refine ⟨?_, hd3⟩
      intro hdd
      exact hd3 (by rw [hdd]; rfl)
  refine ⟨?_, h2n, depthWalk_no_dotdot (fun s hs => (h2n s hs).1) 0⟩
  cases p with
  | nil => simp at h1
  | cons c rest => simpa using h1

/-- The file stage never touches new paths: it reports the ones it was
given. -/
theorem fileStage_touched (cfg : Config) (env : Env) (r : Request)
    (T : List (List Nat)) (path : List Nat) (st : FileInfo) :
    (fileStage cfg env r T path st).touched = T := by
  simp only [fileStage]
  split
  · rfl
  · split <;> rfl

/-- Shape of the planner's touched-path list: either nothing was touched
(400/403 before any stat), or the normalized target out passed the hidden
test and the touched list is [out], or — in the directory branches — also
the slash-terminated canonical target rt1, possibly with the index name
appended. -/
theorem touched_shape (cfg : Config) (env : Env) (r : Request) :
    (sendresponseM cfg env r).touched = [] ∨
    ∃ out, normabspath (cstr r.target) = some out ∧
      ¬ (out.head? = some 46 ∨ [47, 46] <:+: out) ∧
      ((sendresponseM cfg env r).touched = [out] ∨
       ∃ rt1, (rt1 = out ∨ rt1 = out ++ [47]) ∧ rt1.getLast? = some 47 ∧
         ((sendresponseM cfg env r).touched = [out, rt1 ++ cfg.docindex] ∨
          (sendresponseM cfg env r).touched = [out, rt1 ++ cfg.docindex, rt1])) := by
  simp only [sendresponseM]
  split
  · left; rfl
  · rename_i out hno
    by_cases hh : out.head? = some 46 ∨ [47, 46] <:+: out
    · rw [if_pos hh]; left; rfl
    · rw [if_neg hh]
      right
      refine ⟨out, hno ▸ rfl, hh, ?_⟩
      split
      · left; rfl
      · rename_i stt hst
        by_cases h431 : stt.isDir = true ∧ out.length = PATH_MAX - 2
        · rw [if_pos h431]; left; rfl
        · rw [if_neg h431]
          by_cases hred :
              cstr r.target ≠
                (if stt.isDir ∧ out ≠ [] ∧ out.getLast? ≠ some 47 then out ++ [47] else out)
          · rw [if_pos hred]; left; rfl
          · rw [if_neg hred]
            push_neg at hred
            by_cases hdir : stt.isDir = true
            · rw [if_pos hdir]
              have hout_ne : out ≠ [] := by
                obtain ⟨stk, e, hk, ho⟩ := normabspath_shape hno
                rw [ho]; simp [renderNorm]
              have hrt1or :
                  (if stt.isDir ∧ out ≠ [] ∧ out.getLast? ≠ some 47 then out ++ [47] else out)
                    = out ∨
                  (if stt.isDir ∧ out ≠ [] ∧ out.getLast? ≠ some 47 then out ++ [47] else out)
                    = out ++ [47] := by
                split
                · right; rfl
                · left; rfl
              have hrt1last :
                  (if stt.isDir ∧ out ≠ [] ∧ out.getLast? ≠ some 47 then out ++ [47] else out).getLast?
                    = some 47 := by
                split
                · exact List.getLast?_concat _
                · rename_i hcond
                  push_neg at hcond
                  exact hcond hdir hout_ne
              by_cases hlen : PATH_MAX ≤ (cstr r.target ++ cfg.docindex).length
              · rw [if_pos hlen]; left; rfl
              · rw [if_neg hlen]
                split
                · rename_i ist hist
                  by_cases hreg : ist.isReg = true
                  · rw [if_pos hreg]
                    right
                    refine ⟨_, hrt1or, hrt1last, Or.inl ?_⟩
                    rw [fileStage_touched, hred]
                  · rw [if_neg hreg]
                    by_cases hld : cfg.listdirs = true
                    · rw [if_pos hld]
                      right
                      refine ⟨_, hrt1or, hrt1last, Or.inr ?_⟩
                      rw [hred]
                    · rw [if_neg hld]
                      right
                      refine ⟨_, hrt1or, hrt1last, Or.inl ?_⟩
                      rw [hred]
                · rename_i e hist
                  by_cases hld : cfg.listdirs = true
                  · rw [if_pos hld]
                    right
                    refine ⟨_, hrt1or, hrt1last, Or.inr ?_⟩
                    rw [hred]
                  · rw [if_neg hld]
                    by_cases hacc : (¬ env.indetReg = true) ∨ e = .eacces
                    · rw [if_pos hacc]
                      right
                      refine ⟨_, hrt1or, hrt1last, Or.inl ?_⟩
                      rw [hred]
                    · rw [if_neg hacc]
                      right
                      refine ⟨_, hrt1or, hrt1last, Or.inl ?_⟩
                      rw [hred]
            · rw [if_neg hdir]
              left
              rw [fileStage_touched]


/-- A regular file of 10 bytes used in concrete checks. -/
def fileF : FileInfo := ⟨false, true, 10, 50⟩

/-- A directory used in concrete checks. -/
def dirD : FileInfo := ⟨true, false, 0, 0⟩

/-- A regular index file of 3 bytes used in concrete checks. -/
def idxF : FileInfo := ⟨false, true, 3, 7⟩

/-- A small filesystem: the file /f, the directory /d holding index.html. -/
def testStat (p : List Nat) : Except StatErr FileInfo :=
  if p = strBytes "/f" then .ok fileF
  else if p = strBytes "/d/" then .ok dirD
  else if p = strBytes "/d" then .ok dirD
  else if p = strBytes "/d/index.html" then .ok idxF
  else .error .enoent

/-- A date parser knowing the two timestamps around fileF's mtime of 50. -/
def testTime (s : List Nat) : Option Int :=
  if s = strBytes "Thu, 01 Jan 1970 00:00:50 GMT" then some 50
  else if s = strBytes "Thu, 01 Jan 1970 00:00:49 GMT" then some 49
  else none

/-- The concrete host environment for the checks. -/
def testEnv : Env := ⟨testStat, testTime, false⟩

/-- The concrete configuration for the checks. -/
def testCfg : Config := ⟨strBytes "index.html", true, [(strBytes "html", strBytes "text/html")]⟩

/-- Claim C1 (amended): every path the planner hands to stat, scandir or
fopen is the lexically normalized form of the percent-decoded target —
possibly with a trailing slash ensured for a directory, possibly with the
configured index name appended — and every such path is contained: it is
absolute, has no ".." segment and no segment beginning with '.', and its
segment walk never escapes the root.  Adversarial targets either fail
normalization (400) or fail the hidden test (403), in both cases with no
filesystem access at all. -/
theorem planner_containment (cfg : Config) (env : Env) (r : Request)
    (hidx : goodIndexName cfg.docindex) :
    ∀ p ∈ (sendresponseM cfg env r).touched,
      containedPath p ∧
      ∃ out, normabspath (cstr r.target) = some out ∧
        (p = out ∨ p = out ++ [47] ∨ p = out ++ cfg.docindex ∨
          p = (out ++ [47]) ++ cfg.docindex) := by
  intro p hp
  rcases touched_shape cfg env r with hT | ⟨out, hno, hh, hrest⟩
  · rw [hT] at hp; cases hp
  · obtain ⟨st, e, hk, hout⟩ := normabspath_shape hno
    have hd : ∀ s ∈ st, s.head? ≠ some 46 := by
      intro s hs hcon
      exact hh (Or.inr (hout ▸ render_dothead_infix e hs hcon))
    have hcout : containedPath out := hout ▸ containedPath_render e hk hd
    rcases hrest with hT | ⟨rt1, hrt1or, hrt1last, hT⟩
    · rw [hT] at hp
      simp only [List.mem_singleton] at hp
      rw [hp]
      exact ⟨hcout, out, hno, Or.inl rfl⟩
    · have hcrt1 : containedPath rt1 := by
        rcases hrt1or with h | h
        · rw [h]; exact hcout
        · rw [h]; exact containedPath_append_slash hcout
      have hcip : containedPath (rt1 ++ cfg.docindex) :=
        containedPath_append_name hcrt1 hrt1last hidx
      rcases hT with hT | hT
      · rw [hT] at hp
        rcases (by simpa using hp : p = out ∨ p = rt1 ++ cfg.docindex) with hp | hp
        · rw [hp]; exact ⟨hcout, out, hno, Or.inl rfl⟩
        · rw [hp]
          refine ⟨hcip, out, hno, ?_⟩
          rcases hrt1or with h | h
          · rw [h]; exact Or.inr (Or.inr (Or.inl rfl))
          · rw [h]; exact Or.inr (Or.inr (Or.inr rfl))
      · rw [hT] at hp
        rcases (by simpa using hp : p = out ∨ p = rt1 ++ cfg.docindex ∨ p = rt1)
          with hp | hp | hp
        · rw [hp]; exact ⟨hcout, out, hno, Or.inl rfl⟩
        · rw [hp]
          refine ⟨hcip, out, hno, ?_⟩
          rcases hrt1or with h | h
          · rw [h]; exact Or.inr (Or.inr (Or.inl rfl))
          · rw [h]; exact Or.inr (Or.inr (Or.inr rfl))
        · rw [hp]
          refine ⟨hcrt1, out, hno, ?_⟩
          rcases hrt1or with h | h
          · rw [h]; exact Or.inl rfl
          · rw [h]; exact Or.inr (Or.inl rfl)

/-- Witness for the amended C1: on GET /d/ with the index present, the
index path /d/index.html is touched and is contained. -/
theorem planner_containment_witness :
    containedPath (strBytes "/d/index.html") ∧
    ∃ out, normabspath (cstr (strBytes "/d/")) = some out ∧
      (strBytes "/d/index.html" = out ∨ strBytes "/d/index.html" = out ++ [47] ∨
        strBytes "/d/index.html" = out ++ testCfg.docindex ∨
        strBytes "/d/index.html" = (out ++ [47]) ++ testCfg.docindex) :=
  planner_containment testCfg testEnv ⟨.mGET, strBytes "/d/", [], []⟩ (by decide)
    (strBytes "/d/index.html") (by decide)

/-- Counterexample to C1 as stated: the index stat path /d/index.html is
touched by GET /d/ but is not the normalized form /d/ of the decoded
target, so not every touched path IS that normalized form. -/
theorem planner_containment_counterexample :
    strBytes "/d/index.html" ∈
      (sendresponseM testCfg testEnv ⟨.mGET, strBytes "/d/", [], []⟩).touched ∧
    normabspath (cstr (strBytes "/d/")) = some (strBytes "/d/") ∧
    strBytes "/d/index.html" ≠ strBytes "/d/" := by decide

/-- Every accepted range window is nonnegative on the left, clamped to the
file size on the right, and ordered whenever the left end does not exceed
the file size. -/
theorem rangeWindow_ok_bounds {size : Nat} {f : List Nat} {lo hi : Int}
    (h : rangeWindow size f = .ok lo hi) :
    0 ≤ lo ∧ hi ≤ (size : Int) ∧ (lo ≤ (size : Int) → lo ≤ hi) := by
  unfold rangeWindow at h
  split at h
  · simp only [RangeRes.ok.injEq] at h
    obtain ⟨h1, h2⟩ := h
    subst h1; subst h2
    exact ⟨le_refl 0, le_refl _, fun hl => hl⟩
  · split at h
    · split at h
      · cases h
      · split at h
        · cases h
        · split at h
          · cases h
          · rename_i lo0 hlo0 hi0 hhi0
            split at h
            · cases h
            · rename_i hsan
              push_neg at hsan
              simp only [RangeRes.ok.injEq] at h
              obtain ⟨h1, h2⟩ := h
              subst h1; subst h2
              exact ⟨hsan.1, min_le_left _ _, fun hl => le_min hl hsan.2.2⟩
    · cases h

/-- When the file stage ends in a file send, the path is the one it was
given, the MIME type is the table lookup on that path, and the window is
the accepted range window of the request. -/
theorem fileStage_act_file {cfg : Config} {env : Env} {r : Request}
    {T : List (List Nat)} {path : List Nat} {st : FileInfo}
    {p m : List Nat} {lo hi : Int} {st2 : FileInfo}
    (h : (fileStage cfg env r T path st).act = .fileSend p m lo hi st2) :
    p = path ∧ m = mimeLookup cfg.mimes path ∧ st2 = st ∧
      rangeWindow st.size (cstr r.fieldRange) = .ok lo hi := by
  simp only [fileStage] at h
  split at h
  · cases h
  · split at h
    · cases h
    · cases h
    · rename_i lo0 hi0 hr
      simp only [Act.fileSend.injEq] at h
      obtain ⟨h1, h2, h3, h4, h5⟩ := h
      exact ⟨h1.symm, by rw [← h2], h5.symm, by rw [hr, h3, h4]⟩

/-- The planner either never ends in a file send, or its whole result is a
file-stage run. -/
theorem plan_file_source (cfg : Config) (env : Env) (r : Request) :
    (∀ p m lo hi st, (sendresponseM cfg env r).act ≠ .fileSend p m lo hi st) ∨
    ∃ T path stt, sendresponseM cfg env r = fileStage cfg env r T path stt := by
  generalize hPO : sendresponseM cfg env r = PO
  simp only [sendresponseM] at hPO
  repeat' split at hPO
  all_goals subst hPO
  all_goals
    first
      | exact Or.inr ⟨_, _, _, rfl⟩
      | (left; intro p m lo hi st h; simp at h)

/-- afterLastByte misses exactly when the byte does not occur. -/
theorem afterLastByte_none_iff {b : Nat} {l : List Nat} :
    afterLastByte b l = none ↔ b ∉ l := by
  induction l with
  | nil => simp [afterLastByte]
  | cons c r ih =>
    simp only [afterLastByte]
    cases hr : afterLastByte b r with
    | some e =>
      have hbr : b ∈ r := by
        by_contra hn
        rw [ih.mpr hn] at hr
        cases hr
      simp [hbr]
    | none =>
      have hbr : b ∉ r := ih.mp hr
      by_cases hc : (c == b) = true
      · have : b = c := (beq_iff_eq.mp hc).symm
        simp [hc, this]
      · have : ¬ b = c := fun h => hc (beq_iff_eq.mpr h.symm)
        simp [hc, this, hbr]

/-- The suffix after the last occurrence of a byte does not contain it. -/
theorem afterLastByte_some_not_mem {b : Nat} {l e : List Nat}
    (h : afterLastByte b l = some e) : b ∉ e := by
  induction l with
  | nil => simp [afterLastByte] at h
  | cons c r ih =>
    simp only [afterLastByte] at h
    cases hr : afterLastByte b r with
    | some e2 =>
      rw [hr] at h
      simp only [Option.some.injEq] at h
      subst h
      exact ih hr
    | none =>
      rw [hr] at h
      by_cases hc : (c == b) = true
      · rw [if_pos hc] at h
        simp only [Option.some.injEq] at h
        subst h
        exact afterLastByte_none_iff.mp hr
      · rw [if_neg hc] at h
        cases h

/-- The suffix after the last occurrence really is a suffix. -/
theorem afterLastByte_suffix {b : Nat} {l e : List Nat}
    (h : afterLastByte b l = some e) : e <:+ l := by
  induction l with
  | nil => simp [afterLastByte] at h
  | cons c r ih =>
    simp only [afterLastByte] at h
    cases hr : afterLastByte b r with
    | some e2 =>
      rw [hr] at h
      simp only [Option.some.injEq] at h
      subst h
      exact (ih hr).trans ⟨[c], rfl⟩
    | none =>
      rw [hr] at h
      by_cases hc : (c == b) = true
      · rw [if_pos hc] at h
        simp only [Option.some.injEq] at h
        subst h
        exact ⟨[c], rfl⟩
      · rw [if_neg hc] at h
        cases h

/-- Looking for the last occurrence inside a suffix that still contains the
byte gives the same answer as looking in the whole list. -/
theorem afterLastByte_of_suffix {b : Nat} {l e : List Nat}
    (hsuf : e <:+ l) (hmem : b ∈ e) :
    afterLastByte b l = afterLastByte b e := by
  induction l with
  | nil =>
    have : e = [] := List.eq_nil_of_suffix_nil hsuf
    subst this
    cases hmem
  | cons c r ih =>
    rcases List.suffix_cons_iff.mp hsuf with h | h
    · rw [h]
    · have hrec := ih h
      have hne : afterLastByte b e ≠ none := fun hn =>
        afterLastByte_none_iff.mp hn hmem
      simp only [afterLastByte]
      rw [hrec]
      cases hbe : afterLastByte b e with
      | some x => rfl
      | none => exact absurd hbe hne

/-- When the suffix after the last a contains no b but b occurs, the suffix
after the last b contains that a. -/
theorem afterLastByte_cross {a b : Nat} {l e : List Nat} (hab : a ≠ b)
    (ha : afterLastByte a l = some e) (hbe : b ∉ e) (hbl : b ∈ l) :
    ∃ f, afterLastByte b l = some f ∧ a ∈ f := by
  induction l with
  | nil => cases hbl
  | cons c r ih =>
    simp only [afterLastByte] at ha ⊢
    cases hra : afterLastByte a r with
    | some e2 =>
      rw [hra] at ha
      simp only [Option.some.injEq] at ha
      subst ha
      by_cases hbr : b ∈ r
      · obtain ⟨f, hf, haf⟩ := ih hra hbr
        rw [hf]
        exact ⟨f, rfl, haf⟩
      · have hbc : b = c := by
          rcases List.mem_cons.mp hbl with h | h
          · exact h
          · exact absurd h hbr
        have hrbnone : afterLastByte b r = none := afterLastByte_none_iff.mpr hbr
        rw [hrbnone]
        have har : a ∈ r := by
          by_contra hn
          rw [afterLastByte_none_iff.mpr hn] at hra
          cases hra
        refine ⟨r, ?_, har⟩
        rw [if_pos (beq_iff_eq.mpr hbc.symm)]
    | none =>
      rw [hra] at ha
      by_cases hca : (c == a) = true
      · rw [if_pos hca] at ha
        simp only [Option.some.injEq] at ha
        have hca2 : c = a := beq_iff_eq.mp hca
        have hbe2 : b ∈ e := by
          rcases List.mem_cons.mp hbl with h | h
          · exact absurd (h.trans hca2) hab.symm
          · exact ha ▸ h
        exact absurd hbe2 hbe
      · rw [if_neg hca] at ha
        cases ha

/-- The MIME chosen from the whole final path equals the MIME chosen from
its last segment, provided no table extension contains a slash: a last dot
inside an earlier segment yields an extension containing a slash, which can
match nothing. -/
theorem mimeLookup_finalSeg {mimes : List (List Nat × List Nat)} {p : List Nat}
    (h47 : ∀ m ∈ mimes, 47 ∉ m.1) :
    mimeLookup mimes p = mimeLookup mimes ((afterLastByte 47 p).getD p) := by
  cases he : afterLastByte 46 p with
  | none =>
    have h46 : 46 ∉ p := afterLastByte_none_iff.mp he
    cases hf : afterLastByte 47 p with
    | none => simp [mimeLookup]
    | some f =>
      have hsub : f <:+ p := afterLastByte_suffix hf
      have h46f : afterLastByte 46 f = none :=
        afterLastByte_none_iff.mpr (fun hm => h46 (hsub.subset hm))
      simp [mimeLookup, he, h46f]
  | some e =>
    by_cases h47e : 47 ∈ e
    · have hfind : mimes.find? (fun m => m.1 == e) = none := by
        rw [List.find?_eq_none]
        intro m hm
        simp only [beq_iff_eq]
        intro hme
        exact (h47 m hm) (hme ▸ h47e)
      have hsufe : e <:+ p := afterLastByte_suffix he
      have h1 : afterLastByte 47 p = afterLastByte 47 e :=
        afterLastByte_of_suffix hsufe h47e
      cases hf : afterLastByte 47 e with
      | none => exact absurd (afterLastByte_none_iff.mp hf) (fun hn => hn h47e)
      | some f =>
        have h46e : 46 ∉ e := afterLastByte_some_not_mem he
        have hf_sub : f <:+ e := afterLastByte_suffix hf
        have h46f : afterLastByte 46 f = none :=
          afterLastByte_none_iff.mpr (fun hm => h46e (hf_sub.subset hm))
        rw [h1] at *
        simp [mimeLookup, he, hfind, hf, h46f]
    · cases hp47 : afterLastByte 47 p with
      | none => simp [mimeLookup]
      | some f =>
        have h47p : 47 ∈ p := by
          by_contra hn
          rw [afterLastByte_none_iff.mpr hn] at hp47
          cases hp47
        obtain ⟨f2, hf2, h46f2⟩ := afterLastByte_cross (by decide) he h47e h47p
        rw [hp47] at hf2
        simp only [Option.some.injEq] at hf2
        subst hf2
        have hsubf : f <:+ p := afterLastByte_suffix hp47
        have heq2 : afterLastByte 46 p = afterLastByte 46 f :=
          afterLastByte_of_suffix hsubf h46f2
        rw [he] at heq2
        simp [mimeLookup, he, ← heq2]

/-- Claim C4 (amended): every File resolution handed to the file sender has
a nonnegative lower bound, an upper bound clamped within the file size, and
lower ≤ upper whenever the range's first byte position does not exceed the
file size — but a Range whose first byte position exceeds the file size
(such as bytes=1500-2000 on a 1000-byte file) still yields a File
resolution with lower greater than upper.  The mime is the first table
match for the final path's extension — the bytes after the last dot of the
path's last segment — or application/octet-stream, provided no table
extension contains a slash. -/
theorem window_invariant (cfg : Config) (env : Env) (r : Request)
    (p m : List Nat) (lo hi : Int) (st : FileInfo)
    (hext : ∀ mm ∈ cfg.mimes, 47 ∉ mm.1)
    (h : (sendresponseM cfg env r).act = .fileSend p m lo hi st) :
    0 ≤ lo ∧ hi ≤ (st.size : Int) ∧ (lo ≤ (st.size : Int) → lo ≤ hi) ∧
      m = mimeLookup cfg.mimes p ∧
      m = mimeLookup cfg.mimes ((afterLastByte 47 p).getD p) := by
  rcases plan_file_source cfg env r with hno | ⟨T, path, stt, heq⟩
  · exact absurd h (hno p m lo hi st)
  · rw [heq] at h
    obtain ⟨hp, hm, hst, hrw⟩ := fileStage_act_file h
    subst hp
    subst hst
    obtain ⟨h1, h2, h3⟩ := rangeWindow_ok_bounds hrw
    exact ⟨h1, h2, h3, hm, hm.trans (mimeLookup_finalSeg hext)⟩

/-- Witness for the amended C4 at GET /f with Range bytes=2-5 on the
10-byte file. -/
theorem window_invariant_witness :
    0 ≤ (2 : Int) ∧ (5 : Int) ≤ (fileF.size : Int) ∧
      ((2 : Int) ≤ (fileF.size : Int) → (2 : Int) ≤ 5) ∧
      octetStream = mimeLookup testCfg.mimes (strBytes "/f") ∧
      octetStream =
        mimeLookup testCfg.mimes
          ((afterLastByte 47 (strBytes "/f")).getD (strBytes "/f")) :=
  window_invariant testCfg testEnv ⟨.mGET, strBytes "/f", strBytes "bytes=2-5", []⟩
    (strBytes "/f") octetStream 2 5 fileF (by decide) (by decide)

/-- Counterexample to C4 as stated: bytes=15-20 on the 10-byte file /f
yields a File resolution with lower = 15 greater than upper = 10, violating
lower ≤ upper. -/
theorem window_invariant_counterexample :
    (sendresponseM testCfg testEnv
        ⟨.mGET, strBytes "/f", strBytes "bytes=15-20", []⟩).act =
      .fileSend (strBytes "/f") octetStream 15 10 fileF ∧
    ¬ ((15 : Int) ≤ 10) := by decide

/-- The ten bytes of the file /f in concrete checks. -/
def content10 : List Nat := [100, 101, 102, 103, 104, 105, 106, 107, 108, 109]

/-- Claim C2 (code bug): on GET /f with If-Modified-Since equal to the
file's mtime, the planner writes the 304 header (pre304 = true) and then,
because quark.c:611-630 lacks a return, still proceeds to a full File
resolution, so the stream carries the 304 followed by a complete 200
response with the file body; with a strictly older header time the plan is
the plain 200 file send with no 304, as the claim says. -/
theorem modified_since_falls_through :
    (sendresponseM testCfg testEnv
        ⟨.mGET, strBytes "/f", [], strBytes "Thu, 01 Jan 1970 00:00:50 GMT"⟩) =
      ⟨[strBytes "/f"], true, .fileSend (strBytes "/f") octetStream 0 10 fileF⟩ ∧
    (sendresponseM testCfg testEnv
        ⟨.mGET, strBytes "/f", [], strBytes "Thu, 01 Jan 1970 00:00:49 GMT"⟩) =
      ⟨[strBytes "/f"], false, .fileSend (strBytes "/f") octetStream 0 10 fileF⟩ := by
  decide

/-- Claim C3 (code bug): on the 10-byte file /f with Range bytes=2-5, the
planner accepts the window with upper = 5 (the last-byte index, clamped to
the size rather than size - 1), and the sender then writes
Content-Length: 3 and Content-Range: bytes 2-4/10 while streaming the four
bytes file[2..6) — the body matches the claim's min(N, B+1) - A = 4 bytes,
but the code's own Content-Length and Content-Range are one short of both
the claim and the body actually sent. -/
theorem range_headers_off_by_one :
    (sendresponseM testCfg testEnv
        ⟨.mGET, strBytes "/f", strBytes "bytes=2-5", []⟩).act =
      .fileSend (strBytes "/f") octetStream 2 5 fileF ∧
    sendfileM ⟨true, true, content10⟩ []
        ⟨.mGET, strBytes "/f", strBytes "bytes=2-5", []⟩ fileF 2 5 =
      ⟨206, some 3, some (2, 4, 10), (content10.drop 2).take 4, true⟩ ∧
    (content10.drop 2).take 4 = [102, 103, 104, 105] ∧
    some 3 ≠ some ((content10.drop 2).take 4).length ∧
    some (2, 4, 10) ≠ some (2, 5, 10) := by decide

/-- Claim C9 (code bug): when a mid-body write fails, sendfile returns 408
from inside the copy loop without reaching the cleanup label, leaking the
open FILE handle (closed = false); a failed header write, by contrast, does
go through cleanup and closes the file. -/
theorem sendfile_leaks_on_write_error :
    sendfileM ⟨true, true, content10⟩ [true, true, false]
        ⟨.mGET, strBytes "/f", [], []⟩ fileF 0 10 =
      ⟨408, some 10, none, [], false⟩ ∧
    sendfileM ⟨true, true, content10⟩ [false]
        ⟨.mGET, strBytes "/f", [], []⟩ fileF 0 10 =
      ⟨408, none, none, [], true⟩ := by decide

/-- A hexadecimal digit byte is not whitespace. -/
theorem isHexD_not_space {c : Nat} (h : isHexD c = true) : isSpaceC c = false := by
  simp only [isHexD, Bool.or_eq_true, Bool.and_eq_true, decide_eq_true_eq] at h
  rw [Bool.eq_false_iff]
  intro hs
  simp only [isSpaceC, Bool.or_eq_true, Bool.and_eq_true, decide_eq_true_eq,
    beq_iff_eq] at hs
  omega

/-- A hexadecimal digit byte is not the plus sign. -/
theorem isHexD_ne_plus {c : Nat} (h : isHexD c = true) : c ≠ 43 := by
  intro hc
  subst hc
  simp [isHexD] at h

/-- A hexadecimal digit byte is not the minus sign. -/
theorem isHexD_ne_minus {c : Nat} (h : isHexD c = true) : c ≠ 45 := by
  intro hc
  subst hc
  simp [isHexD] at h

/-- Whitespace skipping stops at a non-whitespace byte. -/
theorem dropWhile_space_stop {c : Nat} (l : List Nat) (hsp : isSpaceC c = false) :
    List.dropWhile isSpaceC (c :: l) = c :: l := by
  rw [List.dropWhile_cons_of_neg]
  simp [hsp]

/-- The %2hhx conversion on two leading hex digits. -/
theorem sscanf2hhx_two_hex {a b : Nat} (r : List Nat) (ha : isHexD a = true)
    (hb : isHexD b = true) :
    sscanf2hhx (a :: b :: r) = some (16 * hexVal a + hexVal b) := by
  simp only [sscanf2hhx, dropWhile_space_stop (b :: r) (isHexD_not_space ha),
    List.head?_cons]
  rw [if_neg (by simp [isHexD_ne_plus ha]), if_neg (by simp [isHexD_ne_minus ha])]
  simp [hex2, ha, hb]

/-- The %2hhx conversion on one leading hex digit followed by a non-digit. -/
theorem sscanf2hhx_one_hex {a c : Nat} (r : List Nat) (ha : isHexD a = true)
    (hc : isHexD c = false) :
    sscanf2hhx (a :: c :: r) = some (hexVal a) := by
  simp only [sscanf2hhx, dropWhile_space_stop (c :: r) (isHexD_not_space ha),
    List.head?_cons]
  rw [if_neg (by simp [isHexD_ne_plus ha]), if_neg (by simp [isHexD_ne_minus ha])]
  simp [hex2, ha, hc]

/-- The %2hhx conversion fails on a leading byte that is no hex digit, no
whitespace and no sign. -/
theorem sscanf2hhx_fail {c : Nat} (r : List Nat) (hc : isHexD c = false)
    (hsp : isSpaceC c = false) (h43 : c ≠ 43) (h45 : c ≠ 45) :
    sscanf2hhx (c :: r) = none := by
  simp only [sscanf2hhx, dropWhile_space_stop r hsp, List.head?_cons]
  rw [if_neg (by simp [h43]), if_neg (by simp [h45])]
  cases r with
  | nil => simp [hex2, hc]
  | cons d r2 => simp [hex2, hc]

/-- The %2hhx conversion on a single hex digit at the end of the string. -/
theorem sscanf2hhx_single {a : Nat} (ha : isHexD a = true) :
    sscanf2hhx [a] = some (hexVal a) := by
  simp only [sscanf2hhx, dropWhile_space_stop [] (isHexD_not_space ha),
    List.head?_cons]
  rw [if_neg (by simp [isHexD_ne_plus ha]), if_neg (by simp [isHexD_ne_minus ha])]
  simp [hex2, ha]

/-- Claim C7 (amended): decode maps '+' to space and copies any byte other
than '+' and '%' verbatim; after a '%' the following bytes go through the
%2hhx conversion: two leading hex digits produce their byte value, a single
hex digit followed by a non-digit produces that digit's value with the
following byte consumed and dropped, and when the conversion fails (the
byte after '%' being no hex digit, no whitespace and no sign) the '%' is
copied verbatim; a '%' followed by exactly one hex digit at the very end of
the buffer drives the scan past the terminator, which the model leaves
unspecified. -/
theorem decode_characterization :
    (∀ r, decode (43 :: r) = (decode r).map (fun d => 32 :: d)) ∧
    (∀ c r, c ≠ 43 → c ≠ 37 → decode (c :: r) = (decode r).map (fun d => c :: d)) ∧
    (∀ a b r, isHexD a = true → isHexD b = true →
      decode (37 :: a :: b :: r) =
        (decode r).map (fun d => (16 * hexVal a + hexVal b) :: d)) ∧
    (∀ a c r, isHexD a = true → isHexD c = false →
      decode (37 :: a :: c :: r) = (decode r).map (fun d => hexVal a :: d)) ∧
    (∀ c r, isHexD c = false → isSpaceC c = false → c ≠ 43 → c ≠ 45 →
      decode (37 :: c :: r) = (decode (c :: r)).map (fun d => 37 :: d)) ∧
    (∀ a, isHexD a = true → decode [37, a] = none) := by
  refine ⟨?_, ?_, ?_, ?_, ?_, ?_⟩
  · intro r
    simp [decode]
  · intro c r h43 h37
    simp only [decode]
    rw [if_neg (by simp [h43]), if_neg (by simp [h37])]
  · intro a b r ha hb
    simp only [decode]
    rw [if_neg (by decide), if_pos (by decide), sscanf2hhx_two_hex r ha hb]
  · intro a c r ha hc
    simp only [decode]
    rw [if_neg (by decide), if_pos (by decide), sscanf2hhx_one_hex r ha hc]
  · intro c r hc hsp h43 h45
    simp only [decode]
    rw [if_neg (by decide), if_pos (by decide), sscanf2hhx_fail r hc hsp h43 h45]
  · intro a ha
    simp only [decode]
    rw [if_neg (by decide), if_pos (by decide), sscanf2hhx_single ha]

/-- Witness for the amended C7 at concrete bytes: "+a" decodes with the
plus as a space, "%41" decodes to byte 0x41, and a terminal "%4" is the
unspecified overread. -/
theorem decode_characterization_witness :
    decode (43 :: [97]) = (decode [97]).map (fun d => 32 :: d) ∧
    decode (37 :: 52 :: 49 :: []) =
      (decode []).map (fun d => (16 * hexVal 52 + hexVal 49) :: d) ∧
    decode [37, 52] = none :=
  ⟨decode_characterization.1 [97],
   decode_characterization.2.2.1 52 49 [] (by decide) (by decide),
   decode_characterization.2.2.2.2.2 52 (by decide)⟩

/-- Counterexample to C7 as stated: "%4G" has a '%' followed by one hex
digit and one non-hex byte, which the claim says copies verbatim; the code
decodes it to the single byte 0x04 and drops the 'G'. -/
theorem decode_counterexample :
    decode (strBytes "%4G") = some [4] ∧ some [4] ≠ some (strBytes "%4G") := by
  decide

/-- Claim C5 (amended): a failed read before the terminator makes
getrequest answer 408 with no request value; end-of-file, however, merely
stops the receive loop, after which the bytes received so far (less the
final two) are parsed as a header — fewer than two bytes give 400, and a
truncated header is otherwise parsed normally.  The conjuncts: a read error
answers 408; a non-terminating data chunk that fits just accumulates; EOF
stops the loop with the bytes so far; and whatever the loop hands over is
parsed after stripping two bytes. -/
theorem getrequest_read_error_vs_eof :
    (∀ s, getrequestM (none :: s) = some (.error 408)) ∧
    (∀ (c : List Nat) rest acc, c ≠ [] → acc.length + c.length < HEADER_MAX →
      ¬ (4 ≤ acc.length + c.length ∧
          (acc ++ c).drop (acc.length + c.length - 4) = [13, 10, 13, 10]) →
      recvLoop acc (some c :: rest) = recvLoop (acc ++ c) rest) ∧
    (∀ acc s, recvLoop acc (some [] :: s) = .bytes acc) ∧
    (∀ s acc, recvLoop [] s = .bytes acc →
      getrequestM s =
        if acc.length < 2 then some (.error 400)
        else parseHeaderBytes (cstr (acc.take (acc.length - 2)))) := by
  refine ⟨?_, ?_, ?_, ?_⟩
  · intro s
    rfl
  · intro c rest acc hc hlen hterm
    cases c with
    | nil => exact absurd rfl hc
    | cons c0 cs =>
      have hroom : ¬ (HEADER_MAX - acc.length = 0) := by
        simp only [List.length_cons] at hlen
        omega
      have htake : (c0 :: cs).take (HEADER_MAX - acc.length) = c0 :: cs := by
        apply List.take_of_length_le
        simp only [List.length_cons] at hlen ⊢
        omega
      simp only [recvLoop, if_neg hroom, htake]
      rw [if_neg (by
        rw [List.length_append]
        exact hterm), if_neg (by
        rw [List.length_append]
        simp only [List.length_cons] at hlen ⊢
        omega)]
  · intro acc s
    rfl
  · intro s acc h
    simp only [getrequestM, h]

/-- Witness for the amended C5: a read error answers 408; one short chunk
then EOF hands exactly those bytes to the parser. -/
theorem getrequest_read_error_vs_eof_witness :
    getrequestM [none] = some (.error 408) ∧
    recvLoop [] [some (strBytes "GET /"), some []] =
      recvLoop ([] ++ strBytes "GET /") [some []] ∧
    recvLoop ([] ++ strBytes "GET /") [some []] = .bytes ([] ++ strBytes "GET /") :=
  ⟨getrequest_read_error_vs_eof.1 [],
   getrequest_read_error_vs_eof.2.1 (strBytes "GET /") [some []] [] (by decide)
     (by decide) (by decide),
   getrequest_read_error_vs_eof.2.2.1 ([] ++ strBytes "GET /") [some []]⟩

/-- Counterexample to C5 as stated: a peer that sends a request line and
then closes before the terminator gets 400 (from parsing the truncated
header), not 408; and a peer that closes after sending a complete header
plus two stray bytes gets its truncated header parsed successfully — the
parser does produce a request value after EOF. -/
theorem getrequest_eof_counterexample :
    getrequestM [some (strBytes "GET / HTTP/1.1\r\n"), some []] =
      some (.error 400) ∧
    some (Except.error 400) ≠ (some (Except.error 408) : Option (Except Nat Request)) ∧
    getrequestM [some (strBytes "GET / HTTP/1.1\r\n\r\nXY"), some []] =
      some (.ok ⟨.mGET, strBytes "/", [], []⟩) := by decide

/-- Dropping a prefix by predicate never lengthens a list. -/
theorem dropWhile_length_le (q : Nat → Bool) (l : List Nat) :
    (List.dropWhile q l).length ≤ l.length :=
  List.Sublist.length_le (List.dropWhile_sublist q)

/-- A CRLF split of a whitespace-stripped list bounds the remainder. -/
theorem splitCRLF_dropWhile_len {q : Nat → Bool} {l a b : List Nat}
    (h : splitAtCRLF (List.dropWhile q l) = some (a, b)) :
    b.length + 2 ≤ l.length := by
  have h1 := splitAtCRLF_some_len _ _ _ h
  have h2 := dropWhile_length_le q l
  omega

/-- The field loop's fuel is irrelevant as long as it exceeds the input
length: every recursion step removes at least a CRLF. -/
theorem parseFieldsF_fuel_eq :
    ∀ (f1 f2 : Nat) (p fr fm : List Nat), p.length < f1 → p.length < f2 →
      parseFieldsF f1 p fr fm = parseFieldsF f2 p fr fm := by
  intro f1
  induction f1 with
  | zero => intro f2 p fr fm h1 _; omega
  | succ f1 ih =>
    intro f2 p fr fm h1 h2
    cases f2 with
    | zero => omega
    | succ f2 =>
      cases p with
      | nil => rfl
      | cons c pr =>
        simp only [parseFieldsF]
        repeat' split
        all_goals try rfl
        all_goals apply ih
        all_goals rename splitAtCRLF _ = some (_, _) => hs
        all_goals
          first
          | (rename List.drop _ _ = _ :: _ => hq
             have hb := splitCRLF_dropWhile_len hs
             have hqlen := congrArg List.length hq
             simp only [List.length_drop, List.length_cons] at hqlen
             simp only [List.length_cons] at h1 h2
             omega)
          | (have hb := splitAtCRLF_some_len _ _ _ hs
             simp only [List.length_cons] at h1 h2 hb
             omega)

/-- Either fuel bound above the input length gives the entry-point result. -/
theorem parseFieldsF_to_parseFields {fuel : Nat} {p fr fm : List Nat}
    (h : p.length < fuel) :
    parseFieldsF fuel p fr fm = parseFields p fr fm :=
  parseFieldsF_fuel_eq fuel (p.length + 1) p fr fm h (Nat.lt_succ_self _)

/-- Whether a byte string contains a CR immediately followed by LF; the
line scan of quark.c:272-311 advances exactly at such a pair. -/
def hasCRLF : List Nat → Bool
  | [] => false
  | c :: r => if c = 13 ∧ r.head? = some 10 then true else hasCRLF r

instance (l : List Nat) : Decidable (hasCRLF l = false) := by
  infer_instance

/-- A CRLF-free byte string followed by an explicit CRLF splits exactly
there. -/
theorem splitAtCRLF_of_noCRLF (a rest : List Nat) (h : hasCRLF a = false) :
    splitAtCRLF (a ++ 13 :: 10 :: rest) = some (a, rest) := by
  induction a with
  | nil =>
    simp [splitAtCRLF]
  | cons c a' ih =>
    simp only [hasCRLF] at h
    by_cases hc : c = 13 ∧ a'.head? = some 10
    · rw [if_pos hc] at h
      exact absurd h (by simp)
    · rw [if_neg hc] at h
      simp only [List.cons_append, splitAtCRLF, List.append_eq]
      have hside : ¬ (c = 13 ∧ (a' ++ 13 :: 10 :: rest).head? = some 10) := by
        rintro ⟨hc13, hh⟩
        cases a' with
        | nil => simp at hh
        | cons x a'' =>
          simp only [List.cons_append, List.head?_cons] at hh
          exact hc ⟨hc13, by rw [List.head?_cons, hh]⟩
      rw [if_neg hside, ih h]

/-- A CRLF-free byte string has no CRLF split at all. -/
theorem splitAtCRLF_none_of_noCRLF (l : List Nat) (h : hasCRLF l = false) :
    splitAtCRLF l = none := by
  induction l with
  | nil => rfl
  | cons c r ih =>
    simp only [hasCRLF] at h
    by_cases hc : c = 13 ∧ r.head? = some 10
    · rw [if_pos hc] at h
      exact absurd h (by simp)
    · rw [if_neg hc] at h
      simp only [splitAtCRLF]
      rw [if_neg hc, ih h]

/-- Stripping leading spaces stops no later than the appended CRLF. -/
theorem dropWhile_space_append (v rest : List Nat) :
    (v ++ 13 :: 10 :: rest).dropWhile (fun c => c == 32)
      = v.dropWhile (fun c => c == 32) ++ 13 :: 10 :: rest := by
  induction v with
  | nil => simp [List.dropWhile]
  | cons c v' ih =>
    simp only [List.cons_append, List.dropWhile_cons]
    by_cases hc : (c == 32) = true
    · rw [if_pos hc, if_pos hc, ih]
    · rw [if_neg hc, if_neg hc, List.cons_append]

/-- Dropping a prefix from a CRLF-free byte string keeps it CRLF-free. -/
theorem hasCRLF_dropWhile (q : Nat → Bool) (l : List Nat)
    (h : hasCRLF l = false) : hasCRLF (l.dropWhile q) = false := by
  induction l with
  | nil => exact h
  | cons c r ih =>
    simp only [hasCRLF] at h
    by_cases hc : c = 13 ∧ r.head? = some 10
    · rw [if_pos hc] at h
      exact absurd h (by simp)
    · rw [if_neg hc] at h
      by_cases hq : q c = true
      · rw [List.dropWhile_cons_of_pos hq]
        exact ih h
      · rw [List.dropWhile_cons_of_neg hq]
        simp only [hasCRLF]
        rw [if_neg hc]
        exact h

/-- The tail of a CRLF-free byte string is CRLF-free. -/
theorem hasCRLF_tail {c : Nat} {l : List Nat} (h : hasCRLF (c :: l) = false) :
    hasCRLF l = false := by
  simp only [hasCRLF] at h
  by_cases hc : c = 13 ∧ l.head? = some 10
  · rw [if_pos hc] at h
    exact absurd h (by simp)
  · rwa [if_neg hc] at h

/-- Any drop of a CRLF-free byte string is CRLF-free. -/
theorem hasCRLF_drop (n : Nat) (l : List Nat) (h : hasCRLF l = false) :
    hasCRLF (l.drop n) = false := by
  induction n generalizing l with
  | zero => exact h
  | succ n ih =>
    cases l with
    | nil => exact h
    | cons c l' => exact ih l' (hasCRLF_tail h)

/-- A nonempty first part of a CRLF split starts where its input does. -/
theorem splitAtCRLF_fst_head {l a b : List Nat}
    (h : splitAtCRLF l = some (a, b)) : a = [] ∨ a.head? = l.head? := by
  cases l with
  | nil => simp [splitAtCRLF] at h
  | cons c r =>
    simp only [splitAtCRLF] at h
    by_cases hc : c = 13 ∧ r.head? = some 10
    · rw [if_pos hc] at h
      simp only [Option.some.injEq, Prod.mk.injEq] at h
      exact Or.inl h.1.symm
    · rw [if_neg hc] at h
      cases hs : splitAtCRLF r with
      | none =>
        rw [hs] at h
        exact absurd h (by simp)
      | some ab =>
        obtain ⟨a', b'⟩ := ab
        rw [hs] at h
        simp only [Option.some.injEq, Prod.mk.injEq] at h
        rw [← h.1]
        exact Or.inr rfl

/-- The first part of a CRLF split is itself CRLF-free. -/
theorem splitAtCRLF_fst_noCRLF {l a b : List Nat}
    (h : splitAtCRLF l = some (a, b)) : hasCRLF a = false := by
  induction l generalizing a b with
  | nil => simp [splitAtCRLF] at h
  | cons c r ih =>
    simp only [splitAtCRLF] at h
    by_cases hc : c = 13 ∧ r.head? = some 10
    · rw [if_pos hc] at h
      simp only [Option.some.injEq, Prod.mk.injEq] at h
      rw [← h.1]
      rfl
    · rw [if_neg hc] at h
      cases hs : splitAtCRLF r with
      | none =>
        rw [hs] at h
        exact absurd h (by simp)
      | some ab =>
        obtain ⟨a', b'⟩ := ab
        rw [hs] at h
        simp only [Option.some.injEq, Prod.mk.injEq] at h
        obtain ⟨h1, _⟩ := h
        subst h1
        have hside : ¬ (c = 13 ∧ a'.head? = some 10) := by
          rintro ⟨hc13, hh⟩
          rcases splitAtCRLF_fst_head hs with hnil | hhead
          · rw [hnil] at hh
            simp at hh
          · exact hc ⟨hc13, by rw [← hhead]; exact hh⟩
        simp only [hasCRLF]
        rw [if_neg hside]
        exact ih hs

/-- One round of the field loop on a line whose bytes match neither
recognized field name: the line is dropped and nothing is stored. -/
theorem parseFieldsF_skip_step (fuel : Nat) (a rest fr fm : List Nat)
    (hna : ¬ strBytes "Range" <+: (a ++ 13 :: 10 :: rest))
    (hnm : ¬ strBytes "If-Modified-Since" <+: (a ++ 13 :: 10 :: rest))
    (hca : hasCRLF a = false) :
    parseFieldsF (fuel + 1) (a ++ 13 :: 10 :: rest) fr fm
      = parseFieldsF fuel rest fr fm := by
  have hsp := splitAtCRLF_of_noCRLF a rest hca
  cases a with
  | nil =>
    simp only [List.nil_append] at hna hnm hsp ⊢
    simp only [parseFieldsF]
    rw [if_neg hna, if_neg hnm, hsp]
  | cons c a' =>
    simp only [List.cons_append] at hna hnm hsp ⊢
    simp only [parseFieldsF]
    rw [if_neg hna, if_neg hnm, hsp]

/-- One round of the field loop on a well-formed Range line: the
space-stripped value bytes replace the Range slot. -/
theorem parseFieldsF_range_step (fuel : Nat) (v rest fr fm : List Nat)
    (hcv : hasCRLF v = false)
    (hfv : ¬ FIELD_MAX < (v.dropWhile (fun c => c == 32)).length + 1) :
    parseFieldsF (fuel + 1) (strBytes "Range" ++ 58 :: (v ++ 13 :: 10 :: rest)) fr fm
      = parseFieldsF fuel rest (v.dropWhile (fun c => c == 32)) fm := by
  have hR : strBytes "Range" = [82, 97, 110, 103, 101] := by decide
  rw [hR]
  simp only [List.cons_append, List.nil_append]
  have hcond : ([82, 97, 110, 103, 101] : List Nat)
      <+: (82 :: 97 :: 110 :: 103 :: 101 :: 58 :: (v ++ 13 :: 10 :: rest)) :=
    ⟨58 :: (v ++ 13 :: 10 :: rest), rfl⟩
  simp only [parseFieldsF]
  rw [if_pos (by rw [hR]; exact hcond)]
  have hdrop : (82 :: 97 :: 110 :: 103 :: 101 :: 58 :: (v ++ 13 :: 10 :: rest)
      : List Nat).drop 5 = 58 :: (v ++ 13 :: 10 :: rest) := rfl
  rw [hdrop]
  have hsplit : splitAtCRLF ((v ++ 13 :: 10 :: rest).dropWhile (fun c => c == 32))
      = some (v.dropWhile (fun c => c == 32), rest) := by
    rw [dropWhile_space_append]
    exact splitAtCRLF_of_noCRLF _ rest (hasCRLF_dropWhile _ v hcv)
  show (match splitAtCRLF ((v ++ 13 :: 10 :: rest).dropWhile (fun c => c == 32)) with
        | none => Except.error 400
        | some (v, rest) =>
          if FIELD_MAX < v.length + 1 then Except.error 431
          else parseFieldsF fuel rest v fm) = _
  rw [hsplit]
  show (if FIELD_MAX < (v.dropWhile (fun c => c == 32)).length + 1
        then Except.error 431
        else parseFieldsF fuel rest (v.dropWhile (fun c => c == 32)) fm) = _
  rw [if_neg hfv]

/-- One round of the field loop on a well-formed If-Modified-Since line:
the space-stripped value bytes replace the If-Modified-Since slot. -/
theorem parseFieldsF_ims_step (fuel : Nat) (w rest fr fm : List Nat)
    (hcw : hasCRLF w = false)
    (hfw : ¬ FIELD_MAX < (w.dropWhile (fun c => c == 32)).length + 1) :
    parseFieldsF (fuel + 1)
        (strBytes "If-Modified-Since" ++ 58 :: (w ++ 13 :: 10 :: rest)) fr fm
      = parseFieldsF fuel rest fr (w.dropWhile (fun c => c == 32)) := by
  have hI : strBytes "If-Modified-Since"
      = [73, 102, 45, 77, 111, 100, 105, 102, 105, 101, 100, 45, 83, 105,
         110, 99, 101] := by decide
  rw [hI]
  simp only [List.cons_append, List.nil_append]
  have hcond : ([73, 102, 45, 77, 111, 100, 105, 102, 105, 101, 100, 45, 83,
      105, 110, 99, 101] : List Nat)
      <+: (73 :: 102 :: 45 :: 77 :: 111 :: 100 :: 105 :: 102 :: 105 :: 101 ::
           100 :: 45 :: 83 :: 105 :: 110 :: 99 :: 101 :: 58 ::
           (w ++ 13 :: 10 :: rest)) :=
    ⟨58 :: (w ++ 13 :: 10 :: rest), rfl⟩
  have hR : strBytes "Range" = [82, 97, 110, 103, 101] := by decide
  have hnr : ¬ strBytes "Range"
      <+: (73 :: 102 :: 45 :: 77 :: 111 :: 100 :: 105 :: 102 :: 105 :: 101 ::
           100 :: 45 :: 83 :: 105 :: 110 :: 99 :: 101 :: 58 ::
           (w ++ 13 :: 10 :: rest)) := by
    rw [hR]
    rintro ⟨t, ht⟩
    simp [List.cons_append] at ht
  simp only [parseFieldsF]
  rw [if_neg hnr, if_pos (by rw [hI]; exact hcond)]
  have hdrop : (73 :: 102 :: 45 :: 77 :: 111 :: 100 :: 105 :: 102 :: 105 ::
      101 :: 100 :: 45 :: 83 :: 105 :: 110 :: 99 :: 101 :: 58 ::
      (w ++ 13 :: 10 :: rest) : List Nat).drop 17
      = 58 :: (w ++ 13 :: 10 :: rest) := rfl
  rw [hdrop]
  have hsplit : splitAtCRLF ((w ++ 13 :: 10 :: rest).dropWhile (fun c => c == 32))
      = some (w.dropWhile (fun c => c == 32), rest) := by
    rw [dropWhile_space_append]
    exact splitAtCRLF_of_noCRLF _ rest (hasCRLF_dropWhile _ w hcw)
  show (match splitAtCRLF ((w ++ 13 :: 10 :: rest).dropWhile (fun c => c == 32)) with
        | none => Except.error 400
        | some (v, rest) =>
          if FIELD_MAX < v.length + 1 then Except.error 431
          else parseFieldsF fuel rest fr v) = _
  rw [hsplit]
  show (if FIELD_MAX < (w.dropWhile (fun c => c == 32)).length + 1
        then Except.error 431
        else parseFieldsF fuel rest fr (w.dropWhile (fun c => c == 32))) = _
  rw [if_neg hfw]

/-- A nonempty remainder with no CRLF pair anywhere makes the field loop
answer 400, whichever branch the line's leading bytes select. -/
theorem parseFieldsF_no_terminator (fuel : Nat) (q fr fm : List Nat)
    (hq : hasCRLF q = false) (hqn : q ≠ []) :
    parseFieldsF (fuel + 1) q fr fm = .error 400 := by
  cases q with
  | nil => exact absurd rfl hqn
  | cons c q' =>
    simp only [parseFieldsF]
    repeat' split
    all_goals try rfl
    all_goals rename splitAtCRLF _ = some _ => hs
    all_goals first
      | (rename List.drop _ _ = 58 :: _ => heq
         first
         | (have h5 := hasCRLF_drop 5 (c :: q') hq
            rw [heq] at h5
            rw [splitAtCRLF_none_of_noCRLF _
              (hasCRLF_dropWhile _ _ (hasCRLF_tail h5))] at hs
            exact Option.noConfusion hs)
         | (have h17 := hasCRLF_drop 17 (c :: q') hq
            rw [heq] at h17
            rw [splitAtCRLF_none_of_noCRLF _
              (hasCRLF_dropWhile _ _ (hasCRLF_tail h17))] at hs
            exact Option.noConfusion hs))
      | (rw [splitAtCRLF_none_of_noCRLF _ hq] at hs
         exact Option.noConfusion hs)

/-- The field loop only ever stores first parts of CRLF splits, so a
successful run leaves both slots CRLF-free when they start that way. -/
theorem parseFieldsF_noCRLF :
    ∀ (fuel : Nat) (p fr fm fr' fm' : List Nat),
      parseFieldsF fuel p fr fm = .ok (fr', fm') →
      hasCRLF fr = false → hasCRLF fm = false →
      hasCRLF fr' = false ∧ hasCRLF fm' = false := by
  intro fuel
  induction fuel with
  | zero =>
    intro p fr fm fr' fm' h hfr hfm
    simp only [parseFieldsF, Except.ok.injEq, Prod.mk.injEq] at h
    obtain ⟨h1, h2⟩ := h
    subst h1
    subst h2
    exact ⟨hfr, hfm⟩
  | succ fuel ih =>
    intro p fr fm fr' fm' h hfr hfm
    cases p with
    | nil =>
      simp only [parseFieldsF, Except.ok.injEq, Prod.mk.injEq] at h
      obtain ⟨h1, h2⟩ := h
      subst h1
      subst h2
      exact ⟨hfr, hfm⟩
    | cons c pr =>
      simp only [parseFieldsF] at h
      repeat' split at h
      all_goals try (exact absurd h (by simp))
      all_goals rename splitAtCRLF _ = some (_, _) => hs
      all_goals first
        | exact ih _ _ _ _ _ h (splitAtCRLF_fst_noCRLF hs) hfm
        | exact ih _ _ _ _ _ h hfr (splitAtCRLF_fst_noCRLF hs)
        | exact ih _ _ _ _ _ h hfr hfm

/-- A header that parses to a request stores CRLF-free field values. -/
theorem parseHeader_fields_noCRLF {hd : List Nat} {r : Request}
    (hp : parseHeaderBytes hd = some (.ok r)) :
    hasCRLF r.fieldRange = false ∧ hasCRLF r.fieldMod = false := by
  simp only [parseHeaderBytes] at hp
  repeat' split at hp
  all_goals
    first
    | (rename parseFields _ _ _ = Except.ok _ => hpf
       simp only [Option.some.injEq, Except.ok.injEq] at hp
       rw [← hp]
       exact parseFieldsF_noCRLF _ _ _ _ _ _ hpf rfl rfl)
    | simp at hp

/-- Claim C6 (amended): a successfully parsed request stores field values
containing no CR-LF pair (a lone CR or LF can be stored, and an empty
target does parse when the request line carries two consecutive spaces,
contrary to the claim), and a request whose target is empty is answered
400 by the response planner before any filesystem access, since
normabspath rejects every target that does not start with '/'. -/
theorem parsed_request_fields_and_target (cfg : Config) (env : Env)
    (hd : List Nat) (r : Request)
    (hp : parseHeaderBytes hd = some (.ok r)) :
    (hasCRLF r.fieldRange = false ∧ hasCRLF r.fieldMod = false)
    ∧ (r.target = [] → sendresponseM cfg env r = ⟨[], false, .status 400⟩) := by
  refine ⟨parseHeader_fields_noCRLF hp, ?_⟩
  intro ht
  unfold sendresponseM
  rw [ht]
  rfl

/-- Witness for the amended C6 at a concrete header: the double-space
request line parses to the empty target with empty (hence CRLF-free) field
slots, and the planner answers that request 400. -/
theorem parsed_request_fields_and_target_witness :
    parseHeaderBytes (strBytes "GET  HTTP/1.1\r\n")
      = some (.ok ⟨.mGET, [], [], []⟩)
    ∧ ((hasCRLF ([] : List Nat) = false ∧ hasCRLF ([] : List Nat) = false)
       ∧ (([] : List Nat) = [] →
           sendresponseM testCfg testEnv ⟨.mGET, [], [], []⟩
             = ⟨[], false, .status 400⟩)) :=
  ⟨by decide,
   parsed_request_fields_and_target testCfg testEnv (strBytes "GET  HTTP/1.1\r\n")
     ⟨.mGET, [], [], []⟩ (by decide)⟩

/-- Counterexample to C6 as stated: a request line with two spaces between
the method and the version parses successfully to a request whose target
is the empty string, through the whole receive-and-parse path; and a Range
value holding a lone LF between CRLF-terminated ends is stored with that
LF (byte 10) inside it. -/
theorem empty_target_counterexample :
    getrequestM [some (strBytes "GET  HTTP/1.1\r\n\r\n")]
      = some (.ok ⟨.mGET, [], [], []⟩)
    ∧ (⟨.mGET, [], [], []⟩ : Request).target = []
    ∧ parseHeaderBytes (strBytes "GET / HTTP/1.1\r\nRange: a\nb\r\n")
        = some (.ok ⟨.mGET, strBytes "/", [97, 10, 98], []⟩)
    ∧ (10 : Nat) ∈ [97, 10, 98] := by decide

/-- Claim C8 (amended): the field loop of quark.c:272-311 dispatches on a
strncmp prefix match, not on the exact field name.  A CRLF-terminated line
whose bytes extend neither 'Range' nor 'If-Modified-Since' as a byte
prefix is skipped without effect; a line reading 'Range' or
'If-Modified-Since' followed by a colon stores the space-stripped value in
its slot, overwriting the previous value, so of repeated occurrences the
last wins; and a remainder holding no CRLF pair at all is answered 400.
Lines extending a recognized name with further name bytes (such as
'Ranges') take the recognized branch, miss the expected colon, and are
answered 400 rather than skipped. -/
theorem field_line_dispatch
    (a v w q rest fr fm : List Nat)
    (hna : ¬ strBytes "Range" <+: (a ++ 13 :: 10 :: rest))
    (hnm : ¬ strBytes "If-Modified-Since" <+: (a ++ 13 :: 10 :: rest))
    (hca : hasCRLF a = false)
    (hcv : hasCRLF v = false)
    (hcw : hasCRLF w = false)
    (hfv : ¬ FIELD_MAX < (v.dropWhile (fun c => c == 32)).length + 1)
    (hfw : ¬ FIELD_MAX < (w.dropWhile (fun c => c == 32)).length + 1)
    (hq : hasCRLF q = false) (hqn : q ≠ []) :
    parseFields (a ++ 13 :: 10 :: rest) fr fm = parseFields rest fr fm
    ∧ parseFields (strBytes "Range" ++ 58 :: (v ++ 13 :: 10 :: rest)) fr fm
        = parseFields rest (v.dropWhile (fun c => c == 32)) fm
    ∧ parseFields (strBytes "If-Modified-Since" ++ 58 :: (w ++ 13 :: 10 :: rest)) fr fm
        = parseFields rest fr (w.dropWhile (fun c => c == 32))
    ∧ parseFields q fr fm = .error 400 := by
  refine ⟨?_, ?_, ?_, ?_⟩
  · show parseFieldsF ((a ++ 13 :: 10 :: rest).length + 1) (a ++ 13 :: 10 :: rest) fr fm = _
    rw [parseFieldsF_skip_step _ a rest fr fm hna hnm hca]
    exact parseFieldsF_to_parseFields
      (by simp only [List.length_append, List.length_cons]; omega)
  · show parseFieldsF ((strBytes "Range" ++ 58 :: (v ++ 13 :: 10 :: rest)).length + 1)
        (strBytes "Range" ++ 58 :: (v ++ 13 :: 10 :: rest)) fr fm = _
    rw [parseFieldsF_range_step _ v rest fr fm hcv hfv]
    exact parseFieldsF_to_parseFields
      (by simp only [List.length_append, List.length_cons]; omega)
  · show parseFieldsF
        ((strBytes "If-Modified-Since" ++ 58 :: (w ++ 13 :: 10 :: rest)).length + 1)
        (strBytes "If-Modified-Since" ++ 58 :: (w ++ 13 :: 10 :: rest)) fr fm = _
    rw [parseFieldsF_ims_step _ w rest fr fm hcw hfw]
    exact parseFieldsF_to_parseFields
      (by simp only [List.length_append, List.length_cons]; omega)
  · exact parseFieldsF_no_terminator q.length q fr fm hq hqn

/-- Witness for the amended C8 at concrete lines: a Host line is skipped,
Range and If-Modified-Since lines overwrite their slots, and an
unterminated Range line is answered 400. -/
theorem field_line_dispatch_witness :
    parseFields (strBytes "Host: x" ++ 13 :: 10 :: []) (strBytes "a") (strBytes "b")
      = parseFields [] (strBytes "a") (strBytes "b")
    ∧ parseFields (strBytes "Range" ++ 58 :: (strBytes "bytes=0-9" ++ 13 :: 10 :: []))
        (strBytes "a") (strBytes "b")
      = parseFields [] ((strBytes "bytes=0-9").dropWhile (fun c => c == 32)) (strBytes "b")
    ∧ parseFields
        (strBytes "If-Modified-Since" ++ 58 :: (strBytes "old" ++ 13 :: 10 :: []))
        (strBytes "a") (strBytes "b")
      = parseFields [] (strBytes "a") ((strBytes "old").dropWhile (fun c => c == 32))
    ∧ parseFields (strBytes "Range: 5") (strBytes "a") (strBytes "b") = .error 400 :=
  field_line_dispatch (strBytes "Host: x") (strBytes "bytes=0-9") (strBytes "old")
    (strBytes "Range: 5") [] (strBytes "a") (strBytes "b")
    (by decide) (by decide) (by decide) (by decide) (by decide) (by decide)
    (by decide) (by decide) (by decide)

/-- Counterexample to C8 as stated: the CRLF-terminated line 'Ranges: 1'
has a field name that is not exactly Range or If-Modified-Since, so the
claim says the parser skips it (leaving the result of the empty remainder);
the code's prefix match takes the Range branch, misses the colon at offset
five, and answers 400. -/
theorem ranges_line_counterexample :
    parseFields (strBytes "Ranges: 1" ++ [13, 10]) [] [] = .error 400
    ∧ parseFields ([] : List Nat) [] [] = .ok ([], [])
    ∧ (Except.error 400 : Except Nat (List Nat × List Nat)) ≠ .ok ([], []) := by
  decide

end Quark
